import Mathlib

/-!
Verification of `tools/wit_schema_codegen.py` (the sapling schema compiler).

The Python source is shallowly embedded below.  Text processing is modelled
over `List Char`; the three regular expressions of the source
(`RECORD_BLOCK_RE`, `DBI_REC_RE`, `FIELD_RE`) are embedded as deterministic
scanners that reproduce the greedy/backtracking behaviour of Python `re` on
these particular patterns (each pattern is analysed in the comment above its
scanner).  Python `\s`, `\w`, `str.strip`, `int(_, 10)` and `str.upper` are
modelled over ASCII, which covers the character classes the schema language
admits.  All recursion is structural or fuelled so every definition reduces
inside the kernel.
-/

namespace Sapling

/-- A parsed WIT field, mirroring the `WitField` dataclass. -/
structure WitField where
  name : String
  wit_type : String
deriving DecidableEq, Repr

/-- A parsed WIT record, mirroring the `WitRecord` dataclass. -/
structure WitRecord where
  name : String
  refine_rule : Option String
  fields : List WitField
deriving DecidableEq, Repr

/-- A resolved dbi entry, mirroring the `DbiEntry` dataclass. -/
structure DbiEntry where
  dbi : Nat
  name : String
  key_record : String
  value_record : String
  key_ast : WitRecord
  value_ast : WitRecord
deriving DecidableEq, Repr

/-- The record-name suffix kind captured by `DBI_REC_RE` group 3. -/
inductive RecKind where
  | key : RecKind
  | value : RecKind
deriving DecidableEq, Repr

/-- Python `\s` on the ASCII range: space, tab, newline, carriage return,
vertical tab and form feed. -/
def isPyWs (c : Char) : Bool :=
  c.toNat = 32 || c.toNat = 9 || c.toNat = 10 || c.toNat = 13 ||
    c.toNat = 11 || c.toNat = 12

/-- The character class `[a-z0-9]`. -/
def lowerDigit (c : Char) : Bool :=
  (decide (97 ≤ c.toNat) && decide (c.toNat ≤ 122)) ||
    (decide (48 ≤ c.toNat) && decide (c.toNat ≤ 57))

/-- The character class `[a-z0-9-]`. -/
def nameClassChar (c : Char) : Bool :=
  lowerDigit c || c.toNat = 45

/-- The characters `[ \t]`. -/
def isSpaceTab (c : Char) : Bool :=
  c.toNat = 32 || c.toNat = 9

/-- Python `\w` on the ASCII range: `[A-Za-z0-9_]` (used by `\b`). -/
def wordChar (c : Char) : Bool :=
  (decide (65 ≤ c.toNat) && decide (c.toNat ≤ 90)) ||
    (decide (97 ≤ c.toNat) && decide (c.toNat ≤ 122)) ||
    (decide (48 ≤ c.toNat) && decide (c.toNat ≤ 57)) || c.toNat = 95

/-- The ASCII digit class `[0-9]` used by `DBI_REC_RE` and `int(_, 10)`. -/
def isDigitChar (c : Char) : Bool :=
  decide (48 ≤ c.toNat) && decide (c.toNat ≤ 57)

/-- Left brace character (kept out of string literals). -/
def lbrace : Char := Char.ofNat 123

/-- Right brace character. -/
def rbrace : Char := Char.ofNat 125

/-- Single-quote character, for Python `!r` formatting in error messages. -/
def squote : String := String.singleton (Char.ofNat 39)

/-- `str.strip` on a character list: drop ASCII whitespace at both ends. -/
def pyStripList (l : List Char) : List Char :=
  (((l.dropWhile isPyWs).reverse.dropWhile isPyWs).reverse)

/-- `str.strip` for `String`. -/
def pyStrip (s : String) : String :=
  ⟨pyStripList s.data⟩

/-- Strip a literal prefix: `stripLit lit l = some r` iff `l = lit ++ r`. -/
def stripLit : List Char → List Char → Option (List Char)
  | [], l => some l
  | _ :: _, [] => none
  | c :: cs, d :: l => if c = d then stripLit cs l else none

/-- Decimal digit character for `0 ≤ d ≤ 9` (models Python `str` digits). -/
def digitChar (d : Nat) : Char := Char.ofNat (48 + d)

/-- Decimal digits of `n`, most significant first; fuelled so it reduces. -/
def natDigitsAux : Nat → Nat → List Char
  | 0, _ => []
  | fuel + 1, n =>
    if n < 10 then [digitChar n]
    else natDigitsAux fuel (n / 10) ++ [digitChar (n % 10)]

/-- Python `str(n)` for a non-negative integer `n`. -/
def pyStr (n : Nat) : String :=
  ⟨natDigitsAux (n + 1) n⟩

/-- Digit run of `int(_, 10)`: digits with single underscores allowed
between digits, accumulating the value. -/
def digitsRun (acc : Nat) : List Char → Option Nat
  | [] => some acc
  | c :: rest =>
    if isDigitChar c then digitsRun (acc * 10 + (c.toNat - 48)) rest
    else if c.toNat = 95 then
      match rest with
      | [] => none
      | d :: rest2 =>
        if isDigitChar d then digitsRun (acc * 10 + (d.toNat - 48)) rest2
        else none
    else none

/-- `int(s, 10)` after stripping: optional sign, then a digit run that must
begin with a digit.  `none` models the `ValueError` branch. -/
def pyIntCore (l : List Char) : Option Int :=
  match l with
  | c :: rest =>
    if c.toNat = 43 then
      match rest with
      | d :: rest2 => if isDigitChar d then (digitsRun (d.toNat - 48) rest2).map Int.ofNat else none
      | [] => none
    else if c.toNat = 45 then
      match rest with
      | d :: rest2 =>
        if isDigitChar d then (digitsRun (d.toNat - 48) rest2).map (fun n => -(Int.ofNat n)) else none
      | [] => none
    else if isDigitChar c then (digitsRun (c.toNat - 48) rest).map Int.ofNat
    else none
  | [] => none

/-- Python `int(s, 10)` (which itself tolerates surrounding whitespace). -/
def pyInt (s : String) : Option Int :=
  pyIntCore (pyStripList s.data)

/-- `name.replace("-", "_")` on a character. -/
def replDash (c : Char) : Char :=
  if c = '-' then '_' else c

/-- `s.replace("-", "_")`, the separator normalisation used throughout. -/
def normName (s : String) : String :=
  ⟨s.data.map replDash⟩

/-- ASCII `str.upper` on a character. -/
def upChar (c : Char) : Char :=
  if decide (97 ≤ c.toNat) && decide (c.toNat ≤ 122) then Char.ofNat (c.toNat - 32) else c

/-- `WitField.c_name`: the field name with separators normalised. -/
def fieldCName (f : WitField) : String := normName f.name

/-- `WitRecord.c_name`. -/
def recordCName (r : WitRecord) : String := normName r.name

/-- `DbiEntry.c_name`: normalised and upper-cased label. -/
def entryCName (e : DbiEntry) : String := ⟨(normName e.name).data.map upChar⟩

/-!
### `FIELD_RE` — `^\s*([a-z0-9-]+)\s*:\s*([a-z0-9-]+(?:<[^>]+>)?)\s*,` (MULTILINE)

`finditer` over a record body.  The pattern is anchored at a line start
(`^` with MULTILINE).  Greedy matching of this pattern is deterministic:
each `\s*` / class run is a maximal run (the character that must follow each
run can never belong to the run's class, so backtracking cannot produce a
different match), `[^>]+` runs exactly to the first `>`, and when the
optional `(?:<[^>]+>)?` group fails the fall-back path (requiring `\s*,` at
the `<`) fails as well, so a failed group fails the whole attempt.
-/

/-- The final `\s*,` of `FIELD_RE`: whitespace then the mandatory comma;
on success returns the field built from the name and type text. -/
def tailComma (nm ty r : List Char) : Option (WitField × List Char) :=
  match r.dropWhile isPyWs with
  | c :: rest => if c = ',' then some (⟨⟨nm⟩, ⟨ty⟩⟩, rest) else none
  | [] => none

/-- One attempt of `FIELD_RE` at a line-start position: returns the field
and the remainder of the text after the matched `,` on success. -/
def tryFieldMatch (l : List Char) : Option (WitField × List Char) :=
  let r1 := l.dropWhile isPyWs
  let nm := r1.takeWhile nameClassChar
  let r2 := r1.dropWhile nameClassChar
  if nm.isEmpty then none
  else
    match r2.dropWhile isPyWs with
    | [] => none
    | c3 :: r4 =>
      if c3 = ':' then
        let r5 := r4.dropWhile isPyWs
        let ty := r5.takeWhile nameClassChar
        let r6 := r5.dropWhile nameClassChar
        if ty.isEmpty then none
        else
          match r6 with
          | c6 :: r7 =>
            if c6 = '<' then
              let g := r7.takeWhile (fun c => !(c = '>'))
              let r8 := r7.dropWhile (fun c => !(c = '>'))
              if g.isEmpty then none
              else
                match r8 with
                | c8 :: r9 =>
                  if c8 = '>' then tailComma nm (ty ++ '<' :: g ++ ['>']) r9 else none
                | [] => none
            else tailComma nm ty r6
          | [] => tailComma nm ty r6
      else none

/-- `FIELD_RE.finditer`: attempt a match at every line-start position, in
order; a successful match resumes scanning after its final `,`.  `atLS`
says whether the current position starts the string or follows a newline. -/
def fieldScan : Nat → Bool → List Char → List WitField
  | 0, _, _ => []
  | _, _, [] => []
  | fuel + 1, atLS, c :: rest =>
    if atLS then
      match tryFieldMatch (c :: rest) with
      | some (f, r) => f :: fieldScan fuel false r
      | none => fieldScan fuel (c = '\n') rest
    else fieldScan fuel (c = '\n') rest

/-- All fields `FIELD_RE` extracts from a record body. -/
def parseFields (body : String) : List WitField :=
  fieldScan (body.data.length + 1) true body.data

/-!
### `RECORD_BLOCK_RE`

`(?:^[ \t]*///\s*@refine\(([^)]+)\)\s*\n)?[ \t]*record\s+([a-z0-9][a-z0-9-]*)\s*\{([^}]*)\}`
with MULTILINE, via `finditer`.  The optional annotation alternative is only
available at a line start (`^` sits inside the group); when any of its parts
fails the engine falls back to the plain-record alternative at the same
position.  `\s*\n` consumes the whitespace run after `)` up to and including
its last newline (matching at an earlier newline would leave a newline
between it and `record` that `[ \t]*` cannot cross, so the last newline is
the only viable choice).  All other runs are maximal for the same reason as
in `FIELD_RE`.
-/

/-- The suffix of `w` after its last newline (`w` is a whitespace run). -/
def afterLastNewline (w : List Char) : List Char :=
  (w.reverse.takeWhile (fun c => !(c = '\n'))).reverse

/-- Whether a whitespace run contains a newline. -/
def hasNewline (w : List Char) : Bool :=
  w.any (fun c => c = '\n')

/-- The `^[ \t]*///\s*@refine\(([^)]+)\)\s*\n` part: on success, the
refinement text and the remainder (positioned just after the newline). -/
def tryRefine (l : List Char) : Option (String × List Char) :=
  let r1 := l.dropWhile isSpaceTab
  match stripLit "///".data r1 with
  | none => none
  | some r2 =>
    match stripLit "@refine(".data (r2.dropWhile isPyWs) with
    | none => none
    | some r4 =>
      let ex := r4.takeWhile (fun c => !(c = ')'))
      let r5 := r4.dropWhile (fun c => !(c = ')'))
      if ex.isEmpty then none
      else
        match r5 with
        | c5 :: r6 =>
          if c5 = ')' then
            let w := r6.takeWhile isPyWs
            let r7 := r6.dropWhile isPyWs
            if hasNewline w then some (⟨ex⟩, afterLastNewline w ++ r7) else none
          else none
        | [] => none

/-- The `[ \t]*record\s+([a-z0-9][a-z0-9-]*)\s*\{([^}]*)\}` part: on
success, the record name, its brace-delimited body and the remainder. -/
def tryRecordCore (l : List Char) : Option (String × String × List Char) :=
  match stripLit "record".data (l.dropWhile isSpaceTab) with
  | none => none
  | some r2 =>
    let w := r2.takeWhile isPyWs
    let r3 := r2.dropWhile isPyWs
    if w.isEmpty then none
    else
      match r3 with
      | c :: r4 =>
        if lowerDigit c then
          let nmRest := r4.takeWhile nameClassChar
          let r5 := r4.dropWhile nameClassChar
          match r5.dropWhile isPyWs with
          | b :: r6 =>
            if b = lbrace then
              let body := r6.takeWhile (fun d => !(d = rbrace))
              let r7 := r6.dropWhile (fun d => !(d = rbrace))
              match r7 with
              | _ :: r8 => some (⟨c :: nmRest⟩, ⟨body⟩, r8)
              | [] => none
            else none
          | [] => none
        else none
      | [] => none

/-- One attempt of `RECORD_BLOCK_RE` at a position (`atLS`: at a line
start).  The annotation alternative is tried first, exactly as the regex
engine orders an optional group. -/
def tryRecordMatch (atLS : Bool) (l : List Char) : Option (WitRecord × List Char) :=
  let core := fun (ref : Option String) (l2 : List Char) =>
    match tryRecordCore l2 with
    | some (nm, body, rest) =>
      some (⟨nm, ref, fieldScan (body.data.length + 1) true body.data⟩, rest)
    | none => none
  if atLS then
    match tryRefine l with
    | some (ex, r) =>
      match core (some ex) r with
      | some res => some res
      | none => core none l
    | none => core none l
  else core none l

/-- `RECORD_BLOCK_RE.finditer`: attempt at every position in order; a
successful match resumes scanning just after its closing brace. -/
def recordScan : Nat → Bool → List Char → List WitRecord
  | 0, _, _ => []
  | _, _, [] => []
  | fuel + 1, atLS, c :: rest =>
    match tryRecordMatch atLS (c :: rest) with
    | some (r, remaining) => r :: recordScan fuel false remaining
    | none => recordScan fuel (c = '\n') rest

/-- All records `RECORD_BLOCK_RE` extracts from the WIT source text. -/
def parseRecords (wit_text : String) : List WitRecord :=
  recordScan (wit_text.data.length + 1) true wit_text.data

/-!
### `DBI_REC_RE` — `^dbi([0-9]+)-([a-z0-9][a-z0-9-]*)-(key|value)$`

Fully anchored, so the decomposition is unique: the digit run is the maximal
one (the following character must be `-`), and the kind is determined by the
string's suffix (`-key` and `-value` cannot both be suffixes), leaving the
label as everything in between. -/

/-- `splitSuffix suf l = some p` iff `l = p ++ suf`. -/
def splitSuffix (suf l : List Char) : Option (List Char) :=
  if l.length < suf.length then none
  else
    let p := l.take (l.length - suf.length)
    if l.drop (l.length - suf.length) = suf then some p else none

/-- Value of a plain digit run (regex group `[0-9]+` fed to `int(_, 10)`). -/
def digitsToNat (ds : List Char) : Nat :=
  ds.foldl (fun acc c => acc * 10 + (c.toNat - 48)) 0

/-- The label class check `[a-z0-9][a-z0-9-]*`. -/
def labelShaped (lab : List Char) : Bool :=
  match lab with
  | [] => false
  | c :: rest => lowerDigit c && rest.all nameClassChar

/-- `DBI_REC_RE.match` on a record name. -/
def matchDbiRec (s : String) : Option (Nat × String × RecKind) :=
  match stripLit "dbi".data s.data with
  | none => none
  | some r1 =>
    let ds := r1.takeWhile isDigitChar
    let r2 := r1.dropWhile isDigitChar
    if ds.isEmpty then none
    else
      match r2 with
      | c2 :: r3 =>
        if c2 = '-' then
          match splitSuffix "-key".data r3 with
          | some lab =>
            if labelShaped lab then some (digitsToNat ds, ⟨lab⟩, .key) else none
          | none =>
            match splitSuffix "-value".data r3 with
            | some lab =>
              if labelShaped lab then some (digitsToNat ds, ⟨lab⟩, .value) else none
            | none => none
        else none
      | [] => none

/-!
### `parse_dbi_entries` (source lines 59–117)

`per_dbi` and `names_by_dbi` are Python dicts keyed by the index; they are
modelled as association lists in insertion order (each key inserted once),
which reproduces dict semantics for the lookups and updates performed.
`sorted(per_dbi.keys())` is modelled by insertion sort.
-/

/-- Lookup in an association list (Python `dict` access). -/
def alFind {α : Type} : List (Nat × α) → Nat → Option α
  | [], _ => none
  | (k, v) :: rest, key => if k = key then some v else alFind rest key

/-- In-place update of an existing key in an association list. -/
def alUpdate {α : Type} : List (Nat × α) → Nat → α → List (Nat × α)
  | [], _, _ => []
  | (k, v) :: rest, key, nv =>
    if k = key then (k, nv) :: rest else (k, v) :: alUpdate rest key nv

/-- The key/value slot pair held by `per_dbi[dbi]`. -/
def Slot : Type := Option WitRecord × Option WitRecord

/-- Resolver state: `names_by_dbi` and `per_dbi` in insertion order. -/
structure ResolveState where
  names : List (Nat × String)
  slots : List (Nat × Slot)

/-- The `kind` string used in duplicate-record error messages. -/
def kindStr : RecKind → String
  | .key => "key"
  | .value => "value"

/-- Process one parsed record through the resolver loop body. -/
def stepRecord (st : ResolveState) (r : WitRecord) : Except String ResolveState :=
  match matchDbiRec r.name with
  | none => .ok st
  | some (dbi, nm, kind) =>
    let checkName : Except String (List (Nat × String)) :=
      match alFind st.names dbi with
      | some old =>
        if old ≠ nm then
          .error ("dbi " ++ pyStr dbi ++ " has multiple names (" ++ squote ++ old ++ squote
            ++ " vs " ++ squote ++ nm ++ squote ++ ")")
        else .ok st.names
      | none => .ok (st.names ++ [(dbi, nm)])
    match checkName with
    | .error e => .error e
    | .ok names2 =>
      match alFind st.slots dbi with
      | none =>
        let slot : Slot := match kind with
          | .key => (some r, none)
          | .value => (none, some r)
        .ok ⟨names2, st.slots ++ [(dbi, slot)]⟩
      | some (k?, v?) =>
        match kind with
        | .key =>
          if k?.isSome then
            .error ("duplicate key record for dbi " ++ pyStr dbi ++ ": " ++ r.name)
          else .ok ⟨names2, alUpdate st.slots dbi (some r, v?)⟩
        | .value =>
          if v?.isSome then
            .error ("duplicate value record for dbi " ++ pyStr dbi ++ ": " ++ r.name)
          else .ok ⟨names2, alUpdate st.slots dbi (k?, some r)⟩

/-- Insertion into a sorted list, for `sorted(per_dbi.keys())`. -/
def insertSorted (n : Nat) : List Nat → List Nat
  | [] => [n]
  | m :: rest => if n ≤ m then n :: m :: rest else m :: insertSorted n rest

/-- Insertion sort over the dict keys. -/
def sortNat (l : List Nat) : List Nat :=
  l.foldr insertSorted []

/-- The gap check loop over adjacent sorted indices (source lines 98–100). -/
def checkChain : List Nat → Except String Unit
  | a :: b :: rest =>
    if b ≠ a + 1 then
      .error ("dbi sequence gap between " ++ pyStr a ++ " and " ++ pyStr b)
    else checkChain (b :: rest)
  | _ => .ok ()

/-- Build the entry for one index (the loop body of lines 103–116).  The
`KeyError` messages model Python exceptions on states the resolver can
never reach (every sorted key is a `per_dbi` key with a registered name);
the missing-pair message omits the trailing dict repr of the slot that the
Python f-string appends, as no behaviour depends on it. -/
def buildEntry (st : ResolveState) (dbi : Nat) : Except String DbiEntry :=
  match alFind st.slots dbi with
  | some (some k, some v) =>
    match alFind st.names dbi with
    | some nm => .ok ⟨dbi, nm, k.name, v.name, k, v⟩
    | none => .error "KeyError: names_by_dbi"
  | some _ => .error ("dbi " ++ pyStr dbi ++ " missing key/value pair")
  | none => .error "KeyError: per_dbi"

/-- The entry-building loop over the sorted indices. -/
def buildEntries (st : ResolveState) : List Nat → Except String (List DbiEntry)
  | [] => .ok []
  | dbi :: rest =>
    match buildEntry st dbi with
    | .error e => .error e
    | .ok e =>
      match buildEntries st rest with
      | .error e2 => .error e2
      | .ok es => .ok (e :: es)

/-- The resolver loop over all parsed records. -/
def resolveFold : ResolveState → List WitRecord → Except String ResolveState
  | st, [] => .ok st
  | st, r :: rest =>
    match stepRecord st r with
    | .error e => .error e
    | .ok st2 => resolveFold st2 rest

/-- `parse_dbi_entries` (source lines 59–117): scan the WIT text for
records, group them by dbi index, enforce the numbering invariants, and
return the entries in ascending index order. -/
def parse_dbi_entries (wit_text : String) : Except String (List DbiEntry) :=
  match resolveFold ⟨[], []⟩ (parseRecords wit_text) with
  | .error e => .error e
  | .ok st =>
    match sortNat (st.slots.map Prod.fst) with
    | [] => .error "no dbi records found (expected dbiN-*-key/value records)"
    | d0 :: rest =>
      if d0 ≠ 0 then .error "dbi sequence must start at 0"
      else
        match checkChain (d0 :: rest) with
        | .error e => .error e
        | .ok _ => buildEntries st (d0 :: rest)

/-!
### `map_wit_type` and the generated structs (source lines 163–193)

Generated C text is reproduced verbatim (braces written with `\x7b`/`\x7d`
escapes).  `declWidth` reads the byte width of an emitted cell off its C99
fixed-width type, grounding `sizeof` of the packed struct. -/

/-- `map_wit_type` (source lines 163–185): WIT type to C field declaration
lines. -/
def map_wit_type (wit_type : String) (c_name : String) : List String :=
  if wit_type = "s8" ∨ wit_type = "u8" ∨ wit_type = "bool" then
    ["    uint8_t " ++ c_name ++ ";"]
  else if wit_type = "s16" ∨ wit_type = "u16" then
    ["    uint16_t " ++ c_name ++ ";"]
  else if wit_type = "s32" ∨ wit_type = "u32" then
    ["    uint32_t " ++ c_name ++ ";"]
  else if wit_type = "s64" ∨ wit_type = "u64" ∨ wit_type = "timestamp" then
    ["    uint64_t " ++ c_name ++ ";"]
  else if wit_type = "f32" then
    ["    float " ++ c_name ++ ";"]
  else if wit_type = "f64" ∨ wit_type = "score" then
    ["    double " ++ c_name ++ ";"]
  else if wit_type = "utf8" ∨ wit_type = "bytes" ∨ wit_type = "string" then
    ["    uint32_t " ++ c_name ++ "_offset;", "    uint32_t " ++ c_name ++ "_len;"]
  else
    ["    uint64_t " ++ c_name ++ "_unknown_layout;"]

/-- Check that one string is a prefix of another (by character list). -/
def strHasPrefix (p s : String) : Bool :=
  (stripLit p.data s.data).isSome

/-- Byte width of an emitted C cell declaration, from its fixed-width C99
type (the structs are `__attribute__((packed))`, so the struct size is the
sum of its cells' widths). -/
def declWidth (decl : String) : Nat :=
  if strHasPrefix "    uint8_t " decl then 1
  else if strHasPrefix "    uint16_t " decl then 2
  else if strHasPrefix "    uint32_t " decl then 4
  else if strHasPrefix "    uint64_t " decl then 8
  else if strHasPrefix "    float " decl then 4
  else if strHasPrefix "    double " decl then 8
  else 0

/-- All cell declarations of a record, in field order. -/
def recordCells (r : WitRecord) : List String :=
  (r.fields.map (fun f => map_wit_type f.wit_type (fieldCName f))).flatten

/-- `sizeof` of the generated packed struct. -/
def recordSizeof (r : WitRecord) : Nat :=
  ((recordCells r).map declWidth).sum

/-- `generate_record_struct` (source lines 187–193). -/
def generate_record_struct (r : WitRecord) : List String :=
  ("typedef struct __attribute__((packed)) \x7b" :: recordCells r)
    ++ ["\x7d SapWit_" ++ recordCName r ++ ";", ""]

/-!
### Word-boundary substitution (source lines 201–209)

`re.sub(rf"\b{name}\b", "rec->" + c_name, rule)`: replace each occurrence of
`name` that sits between word boundaries.  Two boundary-delimited
occurrences of the same name can never overlap, so the engine's leftmost,
non-overlapping scan is reproduced by a single left-to-right pass that skips
over each replacement. -/

/-- Word-ness of an optional character (`none` = string edge, non-word). -/
def wordnessO : Option Char → Bool
  | none => false
  | some c => wordChar c

/-- Python `\b` between two adjacent positions. -/
def wbB (a b : Option Char) : Bool :=
  wordnessO a != wordnessO b

/-- Boolean list-prefix test. -/
def isPrefixList : List Char → List Char → Bool
  | [], _ => true
  | _ :: _, [] => false
  | c :: cs, d :: l => c = d && isPrefixList cs l

/-- Does `\b nm \b` match at the head of `l`, with `prev` the character
just before this position? -/
def matchAt (nm : List Char) (prev : Option Char) (l : List Char) : Bool :=
  isPrefixList nm l && wbB prev nm.head? && wbB nm.getLast? ((l.drop nm.length).head?)

/-- The scan of `re.sub`: copy characters, splicing in `repl` at each
boundary-delimited occurrence of `nm` and resuming after it. -/
def subAux (nm repl : List Char) : Nat → Option Char → List Char → List Char
  | 0, _, l => l
  | _, _, [] => []
  | fuel + 1, prev, c :: rest =>
    if matchAt nm prev (c :: rest) then
      repl ++ subAux nm repl fuel nm.getLast? ((c :: rest).drop nm.length)
    else c :: subAux nm repl fuel (some c) rest

/-- `re.sub(rf"\b{nm}\b", repl, s)` for a non-empty literal `nm` (field
names are non-empty and contain no regex metacharacters). -/
def pySubWB (nm repl s : List Char) : List Char :=
  subAux nm repl (s.length + 1) none s

/-- Is there any boundary-delimited occurrence of `nm` (same scan)? -/
def wwAux (nm : List Char) : Nat → Option Char → List Char → Bool
  | 0, _, _ => false
  | _, _, [] => false
  | fuel + 1, prev, c :: rest =>
    if matchAt nm prev (c :: rest) then true else wwAux nm fuel (some c) rest

/-- Whether `rule` has a whole-word occurrence of `nm`. -/
def hasWholeWordOcc (nm s : List Char) : Bool :=
  wwAux nm (s.length + 1) none s

/-- Python substring containment `nm in s`. -/
def containsSub (nm s : List Char) : Bool :=
  (List.range (s.length + 1)).any (fun i => isPrefixList nm (s.drop i))

/-- The substitution loop of `generate_validator` (source lines 205–208):
for each field whose name occurs in the rule, substitute
`rec->c_name` for its boundary-delimited occurrences. -/
def substRule (fields : List WitField) (rule : String) : String :=
  ⟨fields.foldl
    (fun r f =>
      if containsSub f.name.data r then
        pySubWB f.name.data ("rec->" ++ fieldCName f).data r
      else r)
    rule.data⟩

/-- `generate_validator` (source lines 195–216): the emitted C validator
lines for one record. -/
def generate_validator (r : WitRecord) : List String :=
  let cn := recordCName r
  let base :=
    ["static inline int sap_wit_validate_" ++ cn ++ "(const void *data, uint32_t len) \x7b",
     "    if (data == NULL || len == 0) return 0; /* Deletion or empty payload bypass */",
     "    if (len < sizeof(SapWit_" ++ cn ++ ")) return -1; /* ERR_CORRUPT */"]
  let mid :=
    match r.refine_rule with
    | some rule =>
      ["    const SapWit_" ++ cn ++ " *rec = (const SapWit_" ++ cn ++ " *)data;",
       "    if (!(" ++ substRule r.fields rule ++ ")) return -1; /* Refinement violation! */"]
    | none => ["    (void)data; /* No refinement constraints */"]
  base ++ mid ++ ["    return 0;", "\x7d", ""]

/-!
### Validator semantics

Meaning of the emitted validator on a byte buffer.  Pointer/length calling
convention: `none` models a `NULL` pointer.  The refinement expression is
arbitrary C text, so its truth value on the decoded record is abstracted as
the parameter `refineHolds`; every other branch of the generated function is
concrete.  The function always returns (`0` or `-1`); C has no exceptions
and `main` converts any Python-side failure into a process exit, so no
outcome is ever thrown. -/

/-- Outcome of one validator call, as named in the generated comments. -/
inductive BufOutcome where
  | empty : BufOutcome
  | corrupt : BufOutcome
  | refinementViolation : BufOutcome
  | valid : BufOutcome
deriving DecidableEq, Repr

/-- The C return value carrying each outcome. -/
def outcomeRet : BufOutcome → Int
  | .empty => 0
  | .corrupt => -1
  | .refinementViolation => -1
  | .valid => 0

/-- Semantics of the generated `sap_wit_validate_*` function. -/
def validatorOutcome (r : WitRecord) (refineHolds : Bool) :
    Option (List Nat) → BufOutcome
  | none => .empty
  | some bytes =>
    if bytes.length = 0 then .empty
    else if bytes.length < recordSizeof r then .corrupt
    else
      match r.refine_rule with
      | some _ => if refineHolds then .valid else .refinementViolation
      | none => .valid

/-!
### `write_c_header` / `write_c_source` (source lines 218–286)

Both emitters are pure functions of the entry list (plus the header path the
source file includes); files are the lines joined with newlines. -/

/-- Join strings with a separator (the `"\n".join(lines)` of `write_text`). -/
def joinWith (sep : String) : List String → String
  | [] => ""
  | [s] => s
  | s :: rest => s ++ sep ++ joinWith sep rest

/-- Struct plus validator emission with the `seen_records` dedup set
(source lines 237–250). -/
def emitRecs : List DbiEntry → List String → List String
  | [], _ => []
  | e :: rest, seen =>
    let (a, seen1) :=
      if seen.contains e.key_ast.name then ([], seen)
      else (generate_record_struct e.key_ast ++ generate_validator e.key_ast,
            e.key_ast.name :: seen)
    let (b, seen2) :=
      if seen1.contains e.value_ast.name then ([], seen1)
      else (generate_record_struct e.value_ast ++ generate_validator e.value_ast,
            e.value_ast.name :: seen1)
    a ++ b ++ emitRecs rest seen2

/-- The lines `write_c_header` writes (source lines 218–261). -/
def headerLines (entries : List DbiEntry) : List String :=
  ["/* Auto-generated by tools/wit_schema_codegen.py; DO NOT EDIT. */",
   "#ifndef SAPLING_WIT_SCHEMA_DBIS_H",
   "#define SAPLING_WIT_SCHEMA_DBIS_H",
   "",
   "#include <stdint.h>",
   "#include <stddef.h>",
   "",
   "typedef struct \x7b",
   "    uint32_t dbi;",
   "    const char *name;",
   "    const char *key_wit_record;",
   "    const char *value_wit_record;",
   "\x7d SapWitDbiSchema;",
   ""]
  ++ entries.map (fun e => "#define SAP_WIT_DBI_" ++ entryCName e ++ " " ++ pyStr e.dbi ++ "u")
  ++ [""]
  ++ emitRecs entries []
  ++ ["",
      "extern const SapWitDbiSchema sap_wit_dbi_schema[];",
      "extern const uint32_t sap_wit_dbi_schema_count;",
      "",
      "#endif /* SAPLING_WIT_SCHEMA_DBIS_H */",
      ""]

/-- The lines `write_c_source` writes (source lines 264–286). -/
def sourceLines (entries : List DbiEntry) (headerPath : String) : List String :=
  ["/* Auto-generated by tools/wit_schema_codegen.py; DO NOT EDIT. */",
   "#include \"" ++ headerPath ++ "\"",
   "",
   "const SapWitDbiSchema sap_wit_dbi_schema[] = \x7b"]
  ++ entries.map (fun e =>
       "    \x7b" ++ pyStr e.dbi ++ "u, \"" ++ normName e.name ++ "\", \""
         ++ e.key_record ++ "\", \"" ++ e.value_record ++ "\"\x7d,")
  ++ ["\x7d;",
      "",
      "const uint32_t sap_wit_dbi_schema_count = (uint32_t)(sizeof(sap_wit_dbi_schema) / sizeof(sap_wit_dbi_schema[0]));",
      ""]

/-!
### `write_manifest` (source lines 120–160)

The prior manifest is modelled at the level `csv.DictReader` delivers it:
a list of rows holding the four columns the reconciler reads (a missing
column reads as the empty string).  CSV byte I/O itself is an external
collaborator per the specification; `csvFile` below reproduces
`csv.writer`'s serialisation (minimal quoting, `\n` terminator) so that
byte-level statements about the written manifest are available. -/

/-- The four columns of a prior manifest row that `write_manifest` reads. -/
structure PriorRow where
  dbi : String
  name : String
  owner : String
  status : String
deriving DecidableEq, Repr

/-- One iteration of the manifest read loop (source lines 126–136): parse
the index, skip rows with an unparseable index or an empty stripped name,
default an empty owner to `runtime` and an empty status to `planned`. -/
def rowKeyVal (r : PriorRow) : Option (Int × (String × String × String)) :=
  match pyInt r.dbi with
  | none => none
  | some d =>
    let n := pyStrip r.name
    if n = "" then none
    else
      some (d, (n,
        (if pyStrip r.owner = "" then "runtime" else pyStrip r.owner),
        (if pyStrip r.status = "" then "planned" else pyStrip r.status)))

/-- One dict assignment of the read loop, seen from the key `k`: a row that
parses with key `k` overwrites the current value for `k`. -/
def emStep (k : Int) (acc : Option (String × String × String)) (r : PriorRow) :
    Option (String × String × String) :=
  match rowKeyVal r with
  | some (k2, v) => if k2 = k then some v else acc
  | none => acc

/-- The `existing_meta` dict as a lookup: the last row that parses with the
given index wins, exactly as repeated dict assignment does. -/
def existingMeta (rows : List PriorRow) (k : Int) : Option (String × String × String) :=
  rows.foldl (emStep k) none

/-- The prior-state lookup for an optional manifest file (`none` models a
nonexistent file: the dict stays empty). -/
def metaOf (prior : Option (List PriorRow)) : Int → Option (String × String × String) :=
  match prior with
  | none => fun _ => none
  | some rows => existingMeta rows

/-- Owner and status chosen for one entry (source lines 143–150): defaults
`runtime` / (`active` for index 0, `planned` otherwise), overridden by the
prior row's stored pair when its stored name equals the derived name. -/
def ownerStatusFor (meta : Int → Option (String × String × String)) (e : DbiEntry) :
    String × String :=
  match meta ((e.dbi : Int)) with
  | some (n, o, s) =>
    if n = normName e.name then (o, s)
    else ("runtime", if e.dbi = 0 then "active" else "planned")
  | none => ("runtime", if e.dbi = 0 then "active" else "planned")

/-- The data row written for one entry (source lines 151–160). -/
def manifestRowFor (meta : Int → Option (String × String × String)) (e : DbiEntry) :
    List String :=
  let (o, s) := ownerStatusFor meta e
  [pyStr e.dbi, normName e.name, "wit:" ++ e.key_record, "wit:" ++ e.value_record, o, s]

/-- The manifest header row (source line 141). -/
def manifestHeader : List String :=
  ["dbi", "name", "key_format", "value_format", "owner", "status"]

/-- All rows `write_manifest` writes, header first, entries in order. -/
def manifestRows (entries : List DbiEntry) (prior : Option (List PriorRow)) :
    List (List String) :=
  manifestHeader :: entries.map (manifestRowFor (metaOf prior))

/-- `csv.writer` field serialisation (excel dialect, QUOTE_MINIMAL): quote
a field containing a delimiter, quote, CR or LF, doubling inner quotes. -/
def csvField (s : String) : String :=
  if s.data.any (fun c => c = ',' || c = '"' || c = '\n' || c = '\r') then
    "\"" ++ ⟨s.data.foldr (fun c acc => if c = '"' then '"' :: '"' :: acc else c :: acc) []⟩ ++ "\""
  else s

/-- One serialised CSV row (`lineterminator="\n"`). -/
def csvRow (fs : List String) : String :=
  joinWith "," (fs.map csvField) ++ "\n"

/-- The serialised CSV file. -/
def csvFile (rows : List (List String)) : String :=
  joinWith "" (rows.map csvRow)

/-- The manifest file `write_manifest` leaves on disk. -/
def manifestFile (entries : List DbiEntry) (prior : Option (List PriorRow)) : String :=
  csvFile (manifestRows entries prior)

/-- `csv.DictReader` view of one written data row under the standard
manifest header: columns 0, 1, 4 and 5 are `dbi`, `name`, `owner`,
`status`. -/
def toPriorRow (r : List String) : PriorRow :=
  ⟨r.getD 0 "", r.getD 1 "", r.getD 4 "", r.getD 5 ""⟩

/-- Reading back a written manifest: drop the header row, view each data
row through `DictReader`. -/
def readBackRows (rows : List (List String)) : List PriorRow :=
  rows.tail.map toPriorRow

/-!
### `main` (source lines 289–315)

After the input file is read, the run is
`parse_dbi_entries → write_manifest → write_c_header → write_c_source`
inside one `try`: any resolver error aborts before the first write, and the
generated artifacts are pure functions of the entries.  The pipeline is
modelled as that composite; an `Except.error` result carries no output
state, matching the fact that nothing has been written when
`parse_dbi_entries` raises. -/

/-- Everything a successful run writes. -/
structure PipelineOut where
  entries : List DbiEntry
  manifest_rows : List (List String)
  header_lines : List String
  source_lines : List String
deriving DecidableEq, Repr

/-- One run of the tool on the WIT text, given the prior manifest state
(`none`: no manifest file) and the header path the source file includes. -/
def runPipeline (wit : String) (prior : Option (List PriorRow)) (headerPath : String) :
    Except String PipelineOut :=
  match parse_dbi_entries wit with
  | .error e => .error e
  | .ok es => .ok ⟨es, manifestRows es prior, headerLines es, sourceLines es headerPath⟩

/-! ## Lemmas about the resolver -/

/-- A successfully built entry carries the index it was built for. -/
theorem buildEntry_dbi (st : ResolveState) (d : Nat) (e : DbiEntry)
    (h : buildEntry st d = .ok e) : e.dbi = d := by
  rcases hs : alFind st.slots d with _ | ⟨k?, v?⟩
  · simp [buildEntry, hs] at h
  · rcases k? with _ | k
    · rcases v? with _ | v <;> simp [buildEntry, hs] at h
    · rcases v? with _ | v
      · simp [buildEntry, hs] at h
      · rcases hn : alFind st.names d with _ | nm
        · simp [buildEntry, hs, hn] at h
        · have h2 : buildEntry st d = .ok ⟨d, nm, k.name, v.name, k, v⟩ := by
            simp [buildEntry, hs, hn]
          rw [h2] at h
          cases h
          rfl

/-- The entry-building loop returns entries whose indices are exactly the
sorted index list, in order. -/
theorem buildEntries_dbis (st : ResolveState) :
    ∀ (l : List Nat) (es : List DbiEntry),
      buildEntries st l = .ok es → es.map DbiEntry.dbi = l := by
  intro l
  induction l with
  | nil => intro es h; simp only [buildEntries] at h; cases h; rfl
  | cons d rest ih =>
    intro es h
    simp only [buildEntries] at h
    rcases he : buildEntry st d with e | e0 <;> rw [he] at h
    · exact absurd h (by simp)
    · rcases hr : buildEntries st rest with e2 | es2 <;> rw [hr] at h
      · exact absurd h (by simp)
      · cases h
        simp [ih es2 hr, buildEntry_dbi st d e0 he]

/-- The gap-check loop certifies that a sorted key list starting at `k` is
the contiguous block `k, k+1, …`. -/
theorem checkChain_range' :
    ∀ (l : List Nat), checkChain l = .ok () →
      ∀ k, l.head? = some k → l = List.range' k l.length := by
  intro l
  induction l with
  | nil => intro _ k hk; cases hk
  | cons a rest ih =>
    intro h k hk
    simp only [List.head?] at hk
    cases hk
    cases rest with
    | nil => simp [List.range']
    | cons b rest2 =>
      simp only [checkChain] at h
      by_cases hb : b ≠ a + 1
      · rw [if_pos hb] at h; exact absurd h (by simp)
      · rw [if_neg hb] at h
        push_neg at hb
        have h2 := ih h b rfl
        simp only [List.length_cons, List.range']
        rw [← hb]
        exact congrArg (a :: ·) h2

/-- C1 core: on any successful parse the entry indices are exactly
`0 .. N-1` in ascending order, and the list is non-empty. -/
theorem parse_dbi_entries_range (wit : String) (es : List DbiEntry)
    (h : parse_dbi_entries wit = .ok es) :
    es ≠ [] ∧ es.map DbiEntry.dbi = List.range es.length := by
  rcases hf : resolveFold ⟨[], []⟩ (parseRecords wit) with e | st
  · simp [parse_dbi_entries, hf] at h
  · rcases hs : sortNat (st.slots.map Prod.fst) with _ | ⟨d0, rest⟩
    · simp [parse_dbi_entries, hf, hs] at h
    · by_cases h0 : d0 = 0
      · subst h0
        rcases hc : checkChain (0 :: rest) with e | u
        · simp [parse_dbi_entries, hf, hs, hc] at h
        · cases u
          have hb : buildEntries st (0 :: rest) = .ok es := by
            simpa [parse_dbi_entries, hf, hs, hc] using h
          have hmap := buildEntries_dbis st (0 :: rest) es hb
          have hrange := checkChain_range' (0 :: rest) hc 0 rfl
          have hlen : es.length = (0 :: rest).length := by
            rw [← hmap, List.length_map]
          constructor
          · intro hnil
            rw [hnil] at hmap
            exact absurd hmap.symm (by simp)
          · rw [hmap, hrange, ← hlen, ← List.range_eq_range']
      · simp [parse_dbi_entries, hf, hs, h0] at h

/-- C1: for every IDL input on which `parse_dbi_entries` succeeds, the
indices of the returned entry list are exactly `0 .. N-1` — non-empty,
starting at 0, with no gaps and no duplicates — and the list is sorted
ascending by index (its index image is literally `List.range N`). -/
theorem claim_c1_resolver_contiguous (wit : String) (es : List DbiEntry)
    (h : parse_dbi_entries wit = .ok es) :
    es ≠ [] ∧ es.map DbiEntry.dbi = List.range es.length :=
  parse_dbi_entries_range wit es h

/-! ## Decimal round-trip: `int(str(n), 10) = n` -/

/-- `digitChar` of a digit has the expected code point. -/
theorem digitChar_toNat (d : Nat) (h : d < 10) : (digitChar d).toNat = 48 + d := by
  interval_cases d <;> rfl

/-- `digitChar` of a digit is in `[0-9]`. -/
theorem digitChar_isDigit (d : Nat) (h : d < 10) : isDigitChar (digitChar d) = true := by
  interval_cases d <;> rfl

/-- Every character `str(n)` produces is a digit. -/
theorem natDigitsAux_all_digit :
    ∀ (fuel n : Nat), n < fuel → ∀ c ∈ natDigitsAux fuel n, isDigitChar c = true := by
  intro fuel
  induction fuel with
  | zero => intro n h; omega
  | succ f ih =>
    intro n _ c hc
    by_cases h10 : n < 10
    · simp only [natDigitsAux, if_pos h10, List.mem_singleton] at hc
      exact hc ▸ digitChar_isDigit n h10
    · simp only [natDigitsAux, if_neg h10, List.mem_append, List.mem_singleton] at hc
      rcases hc with hc | hc
      · exact ih (n / 10) (by omega) c hc
      · exact hc ▸ digitChar_isDigit (n % 10) (Nat.mod_lt n (by omega))

/-- `str(n)` is never empty. -/
theorem natDigitsAux_ne_nil (fuel n : Nat) (h : n < fuel) : natDigitsAux fuel n ≠ [] := by
  cases fuel with
  | zero => omega
  | succ f =>
    by_cases h10 : n < 10
    · simp [natDigitsAux, h10]
    · simp [natDigitsAux, h10]

/-- `digitsRun` consumes one digit character. -/
theorem digitsRun_cons_digit (d : Nat) (hd : d < 10) (acc : Nat) (rest : List Char) :
    digitsRun acc (digitChar d :: rest) = digitsRun (acc * 10 + d) rest := by
  rw [digitsRun.eq_def]
  simp only [digitChar_isDigit d hd, if_pos, digitChar_toNat d hd]
  congr 1
  omega

/-- Reading the digits of `n` extends an accumulator positionally. -/
theorem digitsRun_natDigitsAux :
    ∀ (fuel n : Nat), n < fuel → ∀ (acc : Nat) (rest : List Char),
      digitsRun acc (natDigitsAux fuel n ++ rest)
        = digitsRun (acc * 10 ^ (natDigitsAux fuel n).length + n) rest := by
  intro fuel
  induction fuel with
  | zero => intro n h; omega
  | succ f ih =>
    intro n hn acc rest
    by_cases h10 : n < 10
    · have h1 : natDigitsAux (f + 1) n = [digitChar n] := by
        simp [natDigitsAux, h10]
      rw [h1, List.singleton_append, digitsRun_cons_digit n h10 acc rest,
        List.length_singleton, pow_one]
    · have hdiv : n / 10 < f := by omega
      have hmod : n % 10 < 10 := Nat.mod_lt n (by omega)
      have h1 : natDigitsAux (f + 1) n
          = natDigitsAux f (n / 10) ++ [digitChar (n % 10)] := by
        simp [natDigitsAux, h10]
      rw [h1, List.append_assoc, List.singleton_append,
        ih (n / 10) hdiv acc (digitChar (n % 10) :: rest),
        digitsRun_cons_digit (n % 10) hmod, List.length_append, List.length_singleton]
      congr 1
      rw [pow_succ]
      have hdm := Nat.div_add_mod n 10
      set L := (natDigitsAux f (n / 10)).length
      have : (acc * 10 ^ L + n / 10) * 10 + n % 10
          = acc * (10 ^ L * 10) + ((n / 10) * 10 + n % 10) := by ring
      rw [this]
      omega

/-- Digits are not whitespace. -/
theorem isDigit_not_ws (c : Char) (h : isDigitChar c = true) : isPyWs c = false := by
  simp only [isDigitChar, Bool.and_eq_true, decide_eq_true_eq] at h
  simp only [isPyWs, Bool.or_eq_false_iff, decide_eq_false_iff_not]
  omega

/-- `dropWhile` is the identity when nothing at the front satisfies `p`. -/
theorem dropWhile_eq_self (p : Char → Bool) (l : List Char)
    (h : ∀ c ∈ l, p c = false) : l.dropWhile p = l := by
  cases l with
  | nil => rfl
  | cons c rest =>
    rw [List.dropWhile_cons, if_neg]
    simp [h c (List.mem_cons_self c rest)]

/-- `strip` is the identity on strings with no whitespace anywhere. -/
theorem pyStripList_eq_self (l : List Char) (h : ∀ c ∈ l, isPyWs c = false) :
    pyStripList l = l := by
  unfold pyStripList
  rw [dropWhile_eq_self _ _ h, dropWhile_eq_self, List.reverse_reverse]
  intro c hc
  exact h c (List.mem_reverse.mp hc)

/-- `int(str(n), 10) = n` for every natural `n`. -/
theorem pyInt_pyStr (n : Nat) : pyInt (pyStr n) = some (Int.ofNat n) := by
  have hall := natDigitsAux_all_digit (n + 1) n (Nat.lt_succ_self n)
  have hne := natDigitsAux_ne_nil (n + 1) n (Nat.lt_succ_self n)
  have hstrip : pyStripList (natDigitsAux (n + 1) n) = natDigitsAux (n + 1) n :=
    pyStripList_eq_self _ (fun c hc => isDigit_not_ws c (hall c hc))
  have hrun : digitsRun 0 (natDigitsAux (n + 1) n) = some n := by
    have h2 := digitsRun_natDigitsAux (n + 1) n (Nat.lt_succ_self n) 0 []
    rw [List.append_nil] at h2
    rw [h2]
    simp [digitsRun]
  unfold pyInt pyStr
  rw [show (⟨natDigitsAux (n + 1) n⟩ : String).data = natDigitsAux (n + 1) n from rfl, hstrip]
  rcases hl : natDigitsAux (n + 1) n with _ | ⟨c, rest⟩
  · exact absurd hl hne
  · have hc : isDigitChar c = true := hall c (by rw [hl]; exact List.mem_cons_self c rest)
    have hcn : 48 ≤ c.toNat ∧ c.toNat ≤ 57 := by
      simpa [isDigitChar, Bool.and_eq_true, decide_eq_true_eq] using hc
    rw [hl] at hrun
    rw [digitsRun.eq_def] at hrun
    simp only [hc, if_pos] at hrun
    simp only [pyIntCore]
    rw [if_neg (by omega), if_neg (by omega), if_pos hc]
    have h0 : (0 : Nat) * 10 + (c.toNat - 48) = c.toNat - 48 := by omega
    rw [h0] at hrun
    rw [hrun]
    rfl

/-! ## `strip` idempotence -/

/-- The head of a `dropWhile` result fails the predicate. -/
theorem head_dropWhile_false (p : Char → Bool) :
    ∀ (l : List Char) (c : Char), (l.dropWhile p).head? = some c → p c = false := by
  intro l
  induction l with
  | nil => intro c h; cases h
  | cons d rest ih =>
    intro c h
    rw [List.dropWhile_cons] at h
    by_cases hd : p d
    · rw [if_pos hd] at h; exact ih c h
    · rw [if_neg hd] at h
      simp only [List.head?] at h
      cases h
      simpa using hd

/-- `dropWhile` is idempotent. -/
theorem dropWhile_idem (p : Char → Bool) (l : List Char) :
    (l.dropWhile p).dropWhile p = l.dropWhile p := by
  cases hh : (l.dropWhile p).head? with
  | none =>
    have : l.dropWhile p = [] := by
      cases hl : l.dropWhile p with
      | nil => rfl
      | cons a b => rw [hl] at hh; cases hh
    rw [this]; rfl
  | some c =>
    cases hl : l.dropWhile p with
    | nil => rfl
    | cons a b =>
      rw [hl] at hh
      simp only [List.head?] at hh
      cases hh
      rw [List.dropWhile_cons, if_neg]
      simp [head_dropWhile_false p l c (by rw [hl]; rfl)]

/-- A nonempty `dropWhile` result keeps the original last element. -/
theorem getLast?_dropWhile (p : Char → Bool) :
    ∀ (l : List Char), l.dropWhile p ≠ [] → (l.dropWhile p).getLast? = l.getLast? := by
  intro l
  induction l with
  | nil => intro h; simp at h
  | cons d rest ih =>
    intro h
    rw [List.dropWhile_cons]
    by_cases hd : p d
    · rw [List.dropWhile_cons, if_pos hd] at h
      rw [if_pos hd, ih h]
      have : rest ≠ [] := by
        intro he; rw [he] at h; simp at h
      cases rest with
      | nil => simp at this
      | cons a b => simp [List.getLast?_cons_cons]
    · rw [if_neg hd]

/-- `dropWhile` is the identity when the head fails the predicate. -/
theorem dropWhile_eq_self_of_head (p : Char → Bool) (l : List Char)
    (h : ∀ c, l.head? = some c → p c = false) : l.dropWhile p = l := by
  cases l with
  | nil => rfl
  | cons d rest =>
    rw [List.dropWhile_cons, if_neg]
    simp [h d rfl]

/-- `strip` is idempotent. -/
theorem pyStripList_idem (l : List Char) : pyStripList (pyStripList l) = pyStripList l := by
  unfold pyStripList
  set w := isPyWs
  set Y := l.dropWhile w with hY
  set W := Y.reverse.dropWhile w with hW
  have hWdrop : W.dropWhile w = W := by rw [hW]; exact dropWhile_idem w Y.reverse
  have hSdrop : W.reverse.dropWhile w = W.reverse := by
    apply dropWhile_eq_self_of_head
    intro c hc
    rw [List.head?_reverse] at hc
    have hWne : W ≠ [] := by
      intro he; rw [he] at hc; cases hc
    rw [getLast?_dropWhile w Y.reverse (hW ▸ hWne)] at hc
    rw [List.getLast?_reverse] at hc
    rw [hY] at hc
    exact head_dropWhile_false w l c hc
  rw [hSdrop, List.reverse_reverse, hWdrop]

/-- `strip` for `String` is idempotent. -/
theorem pyStrip_idem (s : String) : pyStrip (pyStrip s) = pyStrip s := by
  unfold pyStrip
  exact congrArg String.mk (pyStripList_idem s.data)

/-- `strip` is the identity on a `String` with no whitespace. -/
theorem pyStrip_eq_self (s : String) (h : ∀ c ∈ s.data, isPyWs c = false) :
    pyStrip s = s := by
  unfold pyStrip
  rw [pyStripList_eq_self s.data h]

/-! ## Shape of labels produced by the resolver -/

/-- A well-formed label: non-empty and drawn from `[a-z0-9-]`. -/
def labelOkS (s : String) : Prop :=
  s.data ≠ [] ∧ ∀ c ∈ s.data, nameClassChar c = true

/-- `[a-z0-9]` is inside `[a-z0-9-]`. -/
theorem lowerDigit_nameClass (c : Char) (h : lowerDigit c = true) :
    nameClassChar c = true := by
  simp [nameClassChar, h]

/-- A label accepted by `labelShaped` is well formed. -/
theorem labelShaped_ok (lab : List Char) (h : labelShaped lab = true) :
    lab ≠ [] ∧ ∀ c ∈ lab, nameClassChar c = true := by
  cases lab with
  | nil => cases h
  | cons c rest =>
    simp only [labelShaped, Bool.and_eq_true, List.all_eq_true] at h
    refine ⟨by simp, ?_⟩
    intro d hd
    rcases List.mem_cons.mp hd with hd | hd
    · exact hd ▸ lowerDigit_nameClass c h.1
    · exact h.2 d hd

/-- Labels extracted by `DBI_REC_RE` are well formed. -/
theorem matchDbiRec_label (s : String) (d : Nat) (nm : String) (k : RecKind)
    (h : matchDbiRec s = some (d, nm, k)) : labelOkS nm := by
  rcases h1 : stripLit "dbi".data s.data with _ | r1
  · simp [matchDbiRec, h1] at h
  · by_cases h2 : (r1.takeWhile isDigitChar).isEmpty
    · simp [matchDbiRec, h1, h2] at h
    · rcases h3 : r1.dropWhile isDigitChar with _ | ⟨c, r3⟩
      · simp [matchDbiRec, h1, h2, h3] at h
      · by_cases hc : c = '-'
        · subst hc
          rcases h4 : splitSuffix "-key".data r3 with _ | lab
          · rcases h5 : splitSuffix "-value".data r3 with _ | lab2
            · simp [matchDbiRec, h1, h2, h3, h4, h5] at h
            · by_cases h6 : labelShaped lab2
              · have hnm : nm = ⟨lab2⟩ := by
                  simp [matchDbiRec, h1, h2, h3, h4, h5, h6] at h
                  exact h.2.1.symm
                have := labelShaped_ok lab2 h6
                exact hnm ▸ this
              · simp [matchDbiRec, h1, h2, h3, h4, h5, h6] at h
          · by_cases h6 : labelShaped lab
            · have hnm : nm = ⟨lab⟩ := by
                simp [matchDbiRec, h1, h2, h3, h4, h6] at h
                exact h.2.1.symm
              have := labelShaped_ok lab h6
              exact hnm ▸ this
            · simp [matchDbiRec, h1, h2, h3, h4, h6] at h
        · simp [matchDbiRec, h1, h2, h3, hc] at h

/-- Invariant: every registered name is a well-formed label. -/
def namesOk (st : ResolveState) : Prop :=
  ∀ p ∈ st.names, labelOkS p.2

/-- One resolver step either keeps the name registry or appends the freshly
matched label. -/
theorem stepRecord_names (st : ResolveState) (r : WitRecord) (st2 : ResolveState)
    (h : stepRecord st r = .ok st2) :
    st2.names = st.names ∨
      ∃ dbi nm k, matchDbiRec r.name = some (dbi, nm, k) ∧
        st2.names = st.names ++ [(dbi, nm)] := by
  rcases hm : matchDbiRec r.name with _ | ⟨dbi, nm, k⟩
  · left
    simp [stepRecord, hm] at h
    rw [← h]
  · rcases hf : alFind st.names dbi with _ | old
    · -- new name appended
      rcases hs : alFind st.slots dbi with _ | ⟨k?, v?⟩
      · right
        refine ⟨dbi, nm, k, rfl, ?_⟩
        cases k <;> · simp [stepRecord, hm, hf, hs] at h; rw [← h]
      · rcases k with _ | _
        · by_cases hk : k?.isSome
          · simp [stepRecord, hm, hf, hs, hk] at h
          · right
            refine ⟨dbi, nm, .key, rfl, ?_⟩
            simp [stepRecord, hm, hf, hs, hk] at h
            rw [← h]
        · by_cases hv : v?.isSome
          · simp [stepRecord, hm, hf, hs, hv] at h
          · right
            refine ⟨dbi, nm, .value, rfl, ?_⟩
            simp [stepRecord, hm, hf, hs, hv] at h
            rw [← h]
    · by_cases ho : old ≠ nm
      · simp [stepRecord, hm, hf, ho] at h
      · left
        push_neg at ho
        rcases hs : alFind st.slots dbi with _ | ⟨k?, v?⟩
        · cases k <;> · simp [stepRecord, hm, hf, ho, hs] at h; rw [← h]
        · rcases k with _ | _
          · by_cases hk : k?.isSome
            · simp [stepRecord, hm, hf, ho, hs, hk] at h
            · simp [stepRecord, hm, hf, ho, hs, hk] at h; rw [← h]
          · by_cases hv : v?.isSome
            · simp [stepRecord, hm, hf, ho, hs, hv] at h
            · simp [stepRecord, hm, hf, ho, hs, hv] at h; rw [← h]

/-- One resolver step preserves the label invariant. -/
theorem stepRecord_namesOk (st : ResolveState) (r : WitRecord) (st2 : ResolveState)
    (h : stepRecord st r = .ok st2) (hok : namesOk st) : namesOk st2 := by
  rcases stepRecord_names st r st2 h with he | ⟨dbi, nm, k, hm, he⟩
  · intro p hp
    exact hok p (he ▸ hp)
  · intro p hp
    rw [he] at hp
    rcases List.mem_append.mp hp with hp | hp
    · exact hok p hp
    · have : p = (dbi, nm) := by simpa using hp
      rw [this]

      exact matchDbiRec_label r.name dbi nm k hm

/-- The resolver fold preserves the label invariant. -/
theorem resolveFold_namesOk :
    ∀ (rs : List WitRecord) (st st2 : ResolveState),
      resolveFold st rs = .ok st2 → namesOk st → namesOk st2 := by
  intro rs
  induction rs with
  | nil =>
    intro st st2 h hok
    simp [resolveFold] at h
    rw [← h]
    exact hok
  | cons r rest ih =>
    intro st st2 h hok
    rcases hs : stepRecord st r with e | stm
    · simp [resolveFold, hs] at h
    · simp only [resolveFold, hs] at h
      exact ih stm st2 h (stepRecord_namesOk st r stm hs hok)

/-- Association-list lookups return registered pairs. -/
theorem alFind_mem {α : Type} :
    ∀ (l : List (Nat × α)) (k : Nat) (v : α), alFind l k = some v → (k, v) ∈ l := by
  intro l
  induction l with
  | nil => intro k v h; cases h
  | cons p rest ih =>
    intro k v h
    rcases p with ⟨k2, v2⟩
    by_cases hk : k2 = k
    · subst hk
      simp only [alFind, if_pos rfl] at h
      cases h
      exact List.mem_cons_self _ _
    · simp only [alFind, if_neg hk] at h
      exact List.mem_cons_of_mem _ (ih k v h)

/-- Every entry a successful parse returns carries a well-formed label. -/
theorem parse_dbi_entries_labelOk (wit : String) (es : List DbiEntry)
    (h : parse_dbi_entries wit = .ok es) : ∀ e ∈ es, labelOkS e.name := by
  rcases hf : resolveFold ⟨[], []⟩ (parseRecords wit) with e | st
  · simp [parse_dbi_entries, hf] at h
  · have hok : namesOk st := by
      apply resolveFold_namesOk (parseRecords wit) ⟨[], []⟩ st hf
      intro p hp
      cases hp
    have hbuild : ∀ (l : List Nat) (es2 : List DbiEntry),
        buildEntries st l = .ok es2 → ∀ e ∈ es2, labelOkS e.name := by
      intro l
      induction l with
      | nil =>
        intro es2 hb e he
        simp only [buildEntries] at hb
        cases hb
        cases he
      | cons d rest ih =>
        intro es2 hb e he
        simp only [buildEntries] at hb
        rcases hbe : buildEntry st d with er | e0
        · rw [hbe] at hb; exact absurd hb (by simp)
        · rw [hbe] at hb
          rcases hbr : buildEntries st rest with er | es3
          · rw [hbr] at hb; exact absurd hb (by simp)
          · rw [hbr] at hb
            cases hb
            rcases List.mem_cons.mp he with he0 | he0
            · subst he0
              rcases hsd : alFind st.slots d with _ | ⟨k?, v?⟩
              · simp [buildEntry, hsd] at hbe
              · rcases k? with _ | kk
                · rcases v? with _ | vv <;> simp [buildEntry, hsd] at hbe
                · rcases v? with _ | vv
                  · simp [buildEntry, hsd] at hbe
                  · rcases hnd : alFind st.names d with _ | nm
                    · simp [buildEntry, hsd, hnd] at hbe
                    · have h2 : buildEntry st d = .ok ⟨d, nm, kk.name, vv.name, kk, vv⟩ := by
                        simp [buildEntry, hsd, hnd]
                      rw [h2] at hbe
                      cases hbe
                      exact hok (d, nm) (alFind_mem st.names d nm hnd)
            · exact ih es3 hbr e he0
    rcases hs : sortNat (st.slots.map Prod.fst) with _ | ⟨d0, rest⟩
    · simp [parse_dbi_entries, hf, hs] at h
    · by_cases h0 : d0 = 0
      · subst h0
        rcases hc : checkChain (0 :: rest) with er | u
        · simp [parse_dbi_entries, hf, hs, hc] at h
        · cases u
          have hb : buildEntries st (0 :: rest) = .ok es := by
            simpa [parse_dbi_entries, hf, hs, hc] using h
          exact hbuild (0 :: rest) es hb
      · simp [parse_dbi_entries, hf, hs, h0] at h

/-! ## Reconciliation lemmas -/

/-- The shape of every triple the read loop stores: non-empty, already
stripped name, owner and status. -/
def goodTriple (v : String × String × String) : Prop :=
  v.1 ≠ "" ∧ pyStrip v.1 = v.1 ∧
    v.2.1 ≠ "" ∧ pyStrip v.2.1 = v.2.1 ∧
    v.2.2 ≠ "" ∧ pyStrip v.2.2 = v.2.2

/-- Values produced by one iteration of the read loop are good. -/
theorem rowKeyVal_good (r : PriorRow) (k : Int) (v : String × String × String)
    (h : rowKeyVal r = some (k, v)) : goodTriple v := by
  rcases hi : pyInt r.dbi with _ | d
  · simp [rowKeyVal, hi] at h
  · by_cases hn : pyStrip r.name = ""
    · simp [rowKeyVal, hi, hn] at h
    · have hv : v = (pyStrip r.name,
          (if pyStrip r.owner = "" then "runtime" else pyStrip r.owner),
          (if pyStrip r.status = "" then "planned" else pyStrip r.status)) := by
        simp [rowKeyVal, hi, hn] at h
        exact h.2.symm
      subst hv
      refine ⟨hn, pyStrip_idem r.name, ?_, ?_, ?_, ?_⟩
      · by_cases ho : pyStrip r.owner = "" <;> simp [ho]
      · by_cases ho : pyStrip r.owner = ""
        · simp only [ho, if_pos]
          decide
        · simp only [if_neg ho]
          exact pyStrip_idem r.owner
      · by_cases hs : pyStrip r.status = "" <;> simp [hs]
      · by_cases hs : pyStrip r.status = ""
        · simp only [hs, if_pos]
          decide
        · simp only [if_neg hs]
          exact pyStrip_idem r.status

/-- Folding the read loop from any accumulator only ever holds good
triples (provided the start is empty or good). -/
theorem emFold_good (k : Int) :
    ∀ (rows : List PriorRow) (acc : Option (String × String × String)),
      (∀ v, acc = some v → goodTriple v) →
      ∀ v, rows.foldl (emStep k) acc = some v → goodTriple v := by
  intro rows
  induction rows with
  | nil => intro acc hacc v h; exact hacc v h
  | cons r rest ih =>
    intro acc hacc v h
    rw [List.foldl_cons] at h
    refine ih (emStep k acc r) ?_ v h
    intro w hw
    rcases hkv : rowKeyVal r with _ | ⟨k2, v2⟩
    · simp [emStep, hkv] at hw
      exact hacc w (by rw [hw])
    · simp only [emStep, hkv] at hw
      by_cases hk2 : k2 = k
      · rw [if_pos hk2] at hw
        cases hw
        exact rowKeyVal_good r k w (hk2 ▸ hkv)
      · rw [if_neg hk2] at hw
        exact hacc w hw

/-- Every `existing_meta` value is good. -/
theorem existingMeta_good (rows : List PriorRow) (k : Int) (v : String × String × String)
    (h : existingMeta rows k = some v) : goodTriple v :=
  emFold_good k rows none (fun _ hv => by cases hv) v h

/-- `metaOf` only returns good triples. -/
theorem metaOf_good (prior : Option (List PriorRow)) (k : Int) (v : String × String × String)
    (h : metaOf prior k = some v) : goodTriple v := by
  rcases prior with _ | rows
  · cases h
  · exact existingMeta_good rows k v h

/-- A fold over rows none of which parse with key `k` keeps the
accumulator. -/
theorem emFold_noMatch (k : Int) :
    ∀ (rows : List PriorRow) (acc : Option (String × String × String)),
      (∀ r ∈ rows, ∀ v2, rowKeyVal r ≠ some (k, v2)) →
      rows.foldl (emStep k) acc = acc := by
  intro rows
  induction rows with
  | nil => intro acc _; rfl
  | cons r rest ih =>
    intro acc hno
    rw [List.foldl_cons]
    have hstep : emStep k acc r = acc := by
      rcases hkv : rowKeyVal r with _ | ⟨k2, v2⟩
      · simp [emStep, hkv]
      · simp only [emStep, hkv]
        rw [if_neg]
        intro hk2
        exact hno r (List.mem_cons_self r rest) v2 (hk2 ▸ hkv)
    rw [hstep]
    exact ih acc (fun r2 h2 => hno r2 (List.mem_cons_of_mem r h2))

/-- Last-writer-wins: when a row parses with key `k` and no later row
does, `existing_meta[k]` is exactly that row's triple. -/
theorem existingMeta_last (pre post : List PriorRow) (r : PriorRow) (k : Int)
    (v : String × String × String)
    (hr : rowKeyVal r = some (k, v))
    (hpost : ∀ r2 ∈ post, ∀ v2, rowKeyVal r2 ≠ some (k, v2)) :
    existingMeta (pre ++ r :: post) k = some v := by
  unfold existingMeta
  rw [List.foldl_append, List.foldl_cons]
  have hstep : emStep k (pre.foldl (emStep k) none) r = some v := by
    simp [emStep, hr]
  rw [hstep]
  exact emFold_noMatch k post (some v) hpost

/-- Any `existing_meta` value was stored by some row of the file. -/
theorem existingMeta_mem (k : Int) :
    ∀ (rows : List PriorRow) (acc : Option (String × String × String))
      (v : String × String × String),
      rows.foldl (emStep k) acc = some v →
      acc = some v ∨ ∃ r ∈ rows, rowKeyVal r = some (k, v) := by
  intro rows
  induction rows with
  | nil => intro acc v h; exact Or.inl h
  | cons r rest ih =>
    intro acc v h
    rw [List.foldl_cons] at h
    rcases ih (emStep k acc r) v h with hacc | ⟨r2, hr2, hkv⟩
    · rcases hkv : rowKeyVal r with _ | ⟨k2, v2⟩
      · simp [emStep, hkv] at hacc
        exact Or.inl (by rw [hacc])
      · simp only [emStep, hkv] at hacc
        by_cases hk2 : k2 = k
        · rw [if_pos hk2] at hacc
          cases hacc
          exact Or.inr ⟨r, List.mem_cons_self r rest, hk2 ▸ hkv⟩
        · rw [if_neg hk2] at hacc
          exact Or.inl hacc
    · exact Or.inr ⟨r2, List.mem_cons_of_mem r hr2, hkv⟩

/-! ## Round-trip: re-reading a written manifest reproduces it -/

/-- Normalised characters of a well-formed label are not whitespace. -/
theorem nameClass_repl_not_ws (c : Char) (h : nameClassChar c = true) :
    isPyWs (replDash c) = false := by
  simp only [nameClassChar, lowerDigit, Bool.or_eq_true, Bool.and_eq_true,
    decide_eq_true_eq] at h
  unfold replDash
  by_cases hc : c = '-'
  · rw [if_pos hc]; decide
  · rw [if_neg hc]
    simp only [isPyWs, Bool.or_eq_false_iff, decide_eq_false_iff_not]
    omega

/-- The derived name of a well-formed label is non-empty and stripped. -/
theorem normName_ok (s : String) (h : labelOkS s) :
    normName s ≠ "" ∧ pyStrip (normName s) = normName s := by
  rcases h with ⟨hne, hcls⟩
  constructor
  · intro he
    have : (normName s).data = [] := by rw [he]
    simp only [normName, List.map_eq_nil_iff] at this
    exact hne this
  · apply pyStrip_eq_self
    intro c hc
    simp only [normName] at hc
    rcases List.mem_map.mp hc with ⟨c0, hc0, rfl⟩
    exact nameClass_repl_not_ws c0 (hcls c0 hc0)

/-- `str(n)` is non-empty and stripped. -/
theorem pyStr_stripped (n : Nat) : pyStr n ≠ "" ∧ pyStrip (pyStr n) = pyStr n := by
  have hall := natDigitsAux_all_digit (n + 1) n (Nat.lt_succ_self n)
  have hne := natDigitsAux_ne_nil (n + 1) n (Nat.lt_succ_self n)
  constructor
  · intro he
    have : (pyStr n).data = [] := by rw [he]
    exact hne this
  · apply pyStrip_eq_self
    intro c hc
    exact isDigit_not_ws c (hall c hc)

/-- The owner/status pair chosen for an entry is non-empty and stripped. -/
theorem ownerStatusFor_good (meta : Int → Option (String × String × String))
    (hmeta : ∀ k v, meta k = some v → goodTriple v) (e : DbiEntry) :
    (ownerStatusFor meta e).1 ≠ "" ∧ pyStrip (ownerStatusFor meta e).1 = (ownerStatusFor meta e).1 ∧
      (ownerStatusFor meta e).2 ≠ "" ∧ pyStrip (ownerStatusFor meta e).2 = (ownerStatusFor meta e).2 := by
  rcases hm : meta ((e.dbi : Int)) with _ | ⟨n, o, s⟩
  · have hval : ownerStatusFor meta e
        = ("runtime", if e.dbi = 0 then "active" else "planned") := by
      simp [ownerStatusFor, hm]
    rw [hval]
    by_cases h0 : e.dbi = 0
    · simp only [h0, if_pos]
      exact ⟨by decide, by decide, by decide, by decide⟩
    · simp only [if_neg h0]
      exact ⟨by decide, by decide, by decide, by decide⟩
  · by_cases hn : n = normName e.name
    · have hval : ownerStatusFor meta e = (o, s) := by
        simp [ownerStatusFor, hm, hn]
      rw [hval]
      have hg := hmeta _ _ hm
      exact ⟨hg.2.2.1, hg.2.2.2.1, hg.2.2.2.2.1, hg.2.2.2.2.2⟩
    · have hval : ownerStatusFor meta e
          = ("runtime", if e.dbi = 0 then "active" else "planned") := by
        simp [ownerStatusFor, hm, hn]
      rw [hval]
      by_cases h0 : e.dbi = 0
      · simp only [h0, if_pos]
        exact ⟨by decide, by decide, by decide, by decide⟩
      · simp only [if_neg h0]
        exact ⟨by decide, by decide, by decide, by decide⟩

/-- Reading back the row written for an entry recovers exactly its index,
derived name, owner and status. -/
theorem rowKeyVal_written (meta : Int → Option (String × String × String))
    (hmeta : ∀ k v, meta k = some v → goodTriple v) (e : DbiEntry) (he : labelOkS e.name) :
    rowKeyVal (toPriorRow (manifestRowFor meta e))
      = some ((e.dbi : Int),
          (normName e.name, (ownerStatusFor meta e).1, (ownerStatusFor meta e).2)) := by
  have hrow : toPriorRow (manifestRowFor meta e)
      = ⟨pyStr e.dbi, normName e.name,
         (ownerStatusFor meta e).1, (ownerStatusFor meta e).2⟩ := rfl
  rw [hrow]
  have hnorm := normName_ok e.name he
  have hos := ownerStatusFor_good meta hmeta e
  unfold rowKeyVal
  simp only [pyInt_pyStr]
  rw [hnorm.2, if_neg hnorm.1, hos.2.1, if_neg hos.1, hos.2.2.2, if_neg hos.2.2.1]
  rfl

/-- The owner/status merge is unchanged by re-reading the manifest the same
entry list just produced. -/
theorem ownerStatusFor_readBack (es : List DbiEntry)
    (meta : Int → Option (String × String × String))
    (hmeta : ∀ k v, meta k = some v → goodTriple v)
    (hnodup : (es.map DbiEntry.dbi).Nodup)
    (hlab : ∀ e ∈ es, labelOkS e.name) :
    ∀ e ∈ es,
      ownerStatusFor (existingMeta (es.map (fun e2 => toPriorRow (manifestRowFor meta e2)))) e
        = ownerStatusFor meta e := by
  intro e he
  obtain ⟨l1, l2, rfl⟩ := List.append_of_mem he
  have hmem : existingMeta
      ((l1 ++ e :: l2).map (fun e2 => toPriorRow (manifestRowFor meta e2)))
      ((e.dbi : Int))
      = some (normName e.name, (ownerStatusFor meta e).1, (ownerStatusFor meta e).2) := by
    rw [List.map_append, List.map_cons]
    apply existingMeta_last
    · exact rowKeyVal_written meta hmeta e (hlab e he)
    · intro r2 hr2 v2 hkv
      rcases List.mem_map.mp hr2 with ⟨e2, he2, rfl⟩
      rw [rowKeyVal_written meta hmeta e2 (hlab e2 (by
        simp only [List.mem_append, List.mem_cons]
        right; right; exact he2))] at hkv
      have hdbi : e2.dbi = e.dbi := by
        have := (Option.some.injEq _ _).mp hkv
        have h1 : (e2.dbi : Int) = (e.dbi : Int) := congrArg Prod.fst this
        exact_mod_cast h1
      have hnd2 : (e.dbi :: l2.map DbiEntry.dbi).Nodup := by
        have h1 : ((l1 ++ e :: l2).map DbiEntry.dbi)
            = l1.map DbiEntry.dbi ++ e.dbi :: l2.map DbiEntry.dbi := by
          rw [List.map_append, List.map_cons]
        rw [h1] at hnodup
        exact hnodup.of_append_right
      have : e.dbi ∉ l2.map DbiEntry.dbi := (List.nodup_cons.mp hnd2).1
      exact this (hdbi ▸ List.mem_map_of_mem DbiEntry.dbi he2)
  have h2 : ownerStatusFor
      (existingMeta ((l1 ++ e :: l2).map (fun e2 => toPriorRow (manifestRowFor meta e2)))) e
      = ((ownerStatusFor meta e).1, (ownerStatusFor meta e).2) := by
    unfold ownerStatusFor
    rw [hmem]
    simp
    rfl
  rw [h2]

/-- The written row, spelled out. -/
theorem manifestRowFor_eq (meta : Int → Option (String × String × String)) (e : DbiEntry) :
    manifestRowFor meta e
      = [pyStr e.dbi, normName e.name, "wit:" ++ e.key_record, "wit:" ++ e.value_record,
         (ownerStatusFor meta e).1, (ownerStatusFor meta e).2] := rfl

/-- The second run's manifest rows equal the first run's. -/
theorem manifestRows_readBack (es : List DbiEntry) (prior : Option (List PriorRow))
    (hnodup : (es.map DbiEntry.dbi).Nodup)
    (hlab : ∀ e ∈ es, labelOkS e.name) :
    manifestRows es (some (readBackRows (manifestRows es prior)))
      = manifestRows es prior := by
  have hread : readBackRows (manifestRows es prior)
      = es.map (fun e2 => toPriorRow (manifestRowFor (metaOf prior) e2)) := by
    simp [readBackRows, manifestRows, List.map_map]
  rw [hread]
  unfold manifestRows
  congr 1
  apply List.map_congr_left
  intro e he
  have hos := ownerStatusFor_readBack es (metaOf prior) (metaOf_good prior) hnodup hlab e he
  rw [manifestRowFor_eq, manifestRowFor_eq]
  rw [show (metaOf (some (es.map (fun e2 => toPriorRow (manifestRowFor (metaOf prior) e2)))))
      = existingMeta (es.map (fun e2 => toPriorRow (manifestRowFor (metaOf prior) e2))) from rfl]
  rw [hos]

/-- C7: running the pipeline a second time on the identical input, with the
manifest exactly as the first run wrote it, reproduces the first run's
output verbatim — hence byte-identical manifest, header and source files,
since each file is a function of that output. -/
theorem claim_c7_idempotent (wit : String) (prior : Option (List PriorRow))
    (hp : String) (out : PipelineOut)
    (h : runPipeline wit prior hp = .ok out) :
    runPipeline wit (some (readBackRows out.manifest_rows)) hp = .ok out := by
  rcases hparse : parse_dbi_entries wit with e | es
  · simp [runPipeline, hparse] at h
  · have hout : out = ⟨es, manifestRows es prior, headerLines es, sourceLines es hp⟩ := by
      simp only [runPipeline, hparse] at h
      exact ((Except.ok.injEq _ _).mp h).symm
    subst hout
    have hrange := parse_dbi_entries_range wit es hparse
    have hnodup : (es.map DbiEntry.dbi).Nodup := by
      rw [hrange.2]; exact List.nodup_range es.length
    have hlab := parse_dbi_entries_labelOk wit es hparse
    simp only [runPipeline, hparse, Except.ok.injEq]
    have := manifestRows_readBack es prior hnodup hlab
    exact congrArg (fun m => PipelineOut.mk es m (headerLines es) (sourceLines es hp)) this

/-! ## Concrete fixtures

The worked examples of the specification, written as IDL source text. -/

/-- The §8 example schema: one dbi-0 key/value pair labelled `state`. -/
def witExample : String :=
  "record dbi0-state-key \x7b\n  namespace: utf8,\n  key: utf8,\n\x7d\n\nrecord dbi0-state-value \x7b\n  body: bytes,\n  revision: s64,\n\x7d\n"

/-- The parsed key record of the example. -/
def recStateKey : WitRecord :=
  ⟨"dbi0-state-key", none, [⟨"namespace", "utf8"⟩, ⟨"key", "utf8"⟩]⟩

/-- The parsed value record of the example. -/
def recStateValue : WitRecord :=
  ⟨"dbi0-state-value", none, [⟨"body", "bytes"⟩, ⟨"revision", "s64"⟩]⟩

/-- The resolved entry of the example. -/
def entryState : DbiEntry :=
  ⟨0, "state", "dbi0-state-key", "dbi0-state-value", recStateKey, recStateValue⟩

/-- The example resolves to exactly one entry. -/
theorem parse_witExample : parse_dbi_entries witExample = .ok [entryState] := by rfl

/-- The §8 gap example: a complete dbi-0 pair plus `dbi2-foo-key`, no
`dbi1-*` records. -/
def witGap : String :=
  "record dbi0-state-key \x7b\n\x7d\nrecord dbi0-state-value \x7b\n\x7d\nrecord dbi2-foo-key \x7b\n\x7d\n"

/-- Same label on two different indices: `state` on dbi 0 and dbi 1. -/
def witDup : String :=
  witExample ++ "\nrecord dbi1-state-key \x7b\n\x7d\n\nrecord dbi1-state-value \x7b\n\x7d\n"

/-- The second resolved entry of `witDup`. -/
def entryState1 : DbiEntry :=
  ⟨1, "state", "dbi1-state-key", "dbi1-state-value",
   ⟨"dbi1-state-key", none, []⟩, ⟨"dbi1-state-value", none, []⟩⟩

/-! ## C8 -/

set_option maxRecDepth 8000 in
/-- C8: the example IDL resolves to the single entry `(0, state)` and,
with no prior manifest, the written manifest file is the header line plus
exactly the one data row
`0,state,wit:dbi0-state-key,wit:dbi0-state-value,runtime,active`. -/
theorem claim_c8_example_pipeline :
    parse_dbi_entries witExample = .ok [entryState]
    ∧ manifestFile [entryState] none
      = "dbi,name,key_format,value_format,owner,status\n0,state,wit:dbi0-state-key,wit:dbi0-state-value,runtime,active\n" :=
  ⟨parse_witExample, by rfl⟩

/-! ## C6 -/

/-- C6: the gap example fails with `dbi sequence gap between 0 and 2` no
matter what manifest state exists, and — the general abort property — any
input on which the resolver raises makes the whole pipeline return that
error, producing none of the three output artifacts (an `Except.error`
result carries no output state; the Python writes all happen after
`parse_dbi_entries` returns, source lines 302–306). -/
theorem claim_c6_gap_aborts :
    (∀ (prior : Option (List PriorRow)) (hp : String),
      runPipeline witGap prior hp = .error "dbi sequence gap between 0 and 2")
    ∧ (∀ (wit : String) (prior : Option (List PriorRow)) (hp : String) (e : String),
        parse_dbi_entries wit = .error e → runPipeline wit prior hp = .error e) := by
  constructor
  · intro prior hp
    have hp2 : parse_dbi_entries witGap = .error "dbi sequence gap between 0 and 2" := by rfl
    simp [runPipeline, hp2]
  · intro wit prior hp e he
    simp [runPipeline, he]

/-! ## C10 -/

set_option maxRecDepth 8000 in
/-- C10: a schema that reuses the label `state` on dbi 0 and dbi 1 is
accepted by the resolver (label uniqueness is only per index), and the
generated header then contains two `#define` lines with the identical
macro name `SAP_WIT_DBI_STATE` bound to the different values `0u` and
`1u`. -/
theorem claim_c10_duplicate_macro :
    parse_dbi_entries witDup = .ok [entryState, entryState1]
    ∧ "#define SAP_WIT_DBI_STATE 0u" ∈ headerLines [entryState, entryState1]
    ∧ "#define SAP_WIT_DBI_STATE 1u" ∈ headerLines [entryState, entryState1] := by
  refine ⟨by rfl, ?_, ?_⟩ <;> decide

/-! ## C2 -/

/-- C2 counterexample: a prior manifest row `0,state,…,curator,` whose
status cell is empty.  The claim says the stored owner and status are
carried forward verbatim, which would write back the empty status; the
code instead writes `planned` (the read loop replaced the empty status
before the carry-forward, source line 136). -/
theorem claim_c2_counterexample_empty_status :
    manifestRows [entryState] (some [⟨"0", "state", "curator", ""⟩])
      = [manifestHeader,
         ["0", "state", "wit:dbi0-state-key", "wit:dbi0-state-value", "curator", "planned"]]
    ∧ ("planned" : String) ≠ "" := by
  exact ⟨by rfl, by decide⟩

/-- C2 as amended: for a prior row whose index parses to the entry's
index, whose stripped name equals the derived name (itself non-empty), and
whose stripped owner and status are non-empty, owner and status are
carried forward (after stripping) verbatim, provided no later row re-keys
the same index; otherwise — no matching prior row, or a stored name that
differs from the derived name — the defaults apply: owner `runtime`,
status `active` for index 0 and `planned` for every other index. -/
theorem claim_c2_carry_forward_amended :
    (∀ (es : List DbiEntry) (pre post : List PriorRow) (r : PriorRow) (e : DbiEntry),
      e ∈ es →
      normName e.name ≠ "" →
      pyInt r.dbi = some (e.dbi : Int) →
      pyStrip r.name = normName e.name →
      pyStrip r.owner ≠ "" →
      pyStrip r.status ≠ "" →
      (∀ r2 ∈ post, ∀ v2, rowKeyVal r2 ≠ some ((e.dbi : Int), v2)) →
      manifestRowFor (metaOf (some (pre ++ r :: post))) e
        = [pyStr e.dbi, normName e.name, "wit:" ++ e.key_record, "wit:" ++ e.value_record,
           pyStrip r.owner, pyStrip r.status]
      ∧ manifestRowFor (metaOf (some (pre ++ r :: post))) e
          ∈ manifestRows es (some (pre ++ r :: post)))
    ∧ (∀ (prior : Option (List PriorRow)) (e : DbiEntry),
        (∀ v, metaOf prior (e.dbi : Int) = some v → v.1 ≠ normName e.name) →
        manifestRowFor (metaOf prior) e
          = [pyStr e.dbi, normName e.name, "wit:" ++ e.key_record, "wit:" ++ e.value_record,
             "runtime", if e.dbi = 0 then "active" else "planned"]) := by
  constructor
  · intro es pre post r e he hnorm hint hname howner hstatus hpost
    have hkv : rowKeyVal r
        = some ((e.dbi : Int), (normName e.name, pyStrip r.owner, pyStrip r.status)) := by
      unfold rowKeyVal
      rw [hint, hname]
      simp [hnorm, howner, hstatus]
    have hmem : existingMeta (pre ++ r :: post) (e.dbi : Int)
        = some (normName e.name, pyStrip r.owner, pyStrip r.status) :=
      existingMeta_last pre post r _ _ hkv hpost
    have hos : ownerStatusFor (metaOf (some (pre ++ r :: post))) e
        = (pyStrip r.owner, pyStrip r.status) := by
      unfold ownerStatusFor
      rw [show metaOf (some (pre ++ r :: post)) = existingMeta (pre ++ r :: post) from rfl]
      rw [hmem]
      simp
    constructor
    · rw [manifestRowFor_eq, hos]
    · unfold manifestRows
      exact List.mem_cons_of_mem _ (List.mem_map_of_mem _ he)
  · intro prior e hmiss
    rw [manifestRowFor_eq]
    have hos : ownerStatusFor (metaOf prior) e
        = ("runtime", if e.dbi = 0 then "active" else "planned") := by
      unfold ownerStatusFor
      rcases hm : metaOf prior (e.dbi : Int) with _ | ⟨n, o, s⟩
      · rfl
      · have hne : n ≠ normName e.name := hmiss (n, o, s) hm
        simp [hne]
    rw [hos]

/-- Witness for the amended C2 at a concrete input: one prior row
`0,state,alice,frozen` and the example entry; `alice`/`frozen` are carried
into the written row. -/
theorem claim_c2_carry_forward_witness :
    manifestRowFor (metaOf (some ([] ++ (⟨"0", "state", "alice", "frozen"⟩ : PriorRow) :: []))) entryState
      = [pyStr entryState.dbi, normName entryState.name, "wit:" ++ entryState.key_record,
         "wit:" ++ entryState.value_record,
         pyStrip (PriorRow.mk "0" "state" "alice" "frozen").owner,
         pyStrip (PriorRow.mk "0" "state" "alice" "frozen").status]
    ∧ manifestRowFor (metaOf (some ([] ++ (⟨"0", "state", "alice", "frozen"⟩ : PriorRow) :: []))) entryState
        ∈ manifestRows [entryState] (some ([] ++ (⟨"0", "state", "alice", "frozen"⟩ : PriorRow) :: [])) :=
  claim_c2_carry_forward_amended.1 [entryState] [] []
    ⟨"0", "state", "alice", "frozen"⟩ entryState
    (by simp) (by decide) (by decide) (by decide) (by decide) (by decide)
    (by intro r2 hr2 v2; simp at hr2)

/-! ## C3 -/

/-- C3: the generated validator's outcome classification.  For every
record and every truth value of its (abstracted) refinement expression:
a `NULL` or zero-length buffer is `Empty` regardless of the schema; a
non-empty buffer shorter than the packed layout size is `Corrupt`; a
sufficient buffer violates exactly when a refinement exists and evaluates
false, is `Valid` whenever no refinement exists, and is `Valid` when the
refinement holds.  The function is total and only ever returns `0` or
`-1` to the caller — nothing is thrown. -/
theorem claim_c3_validator_classification :
    ∀ (r : WitRecord) (refineHolds : Bool),
      validatorOutcome r refineHolds none = .empty
      ∧ (∀ bytes : List Nat, bytes.length = 0 →
          validatorOutcome r refineHolds (some bytes) = .empty)
      ∧ (∀ bytes : List Nat, bytes.length ≠ 0 → bytes.length < recordSizeof r →
          validatorOutcome r refineHolds (some bytes) = .corrupt)
      ∧ (∀ bytes : List Nat, bytes.length ≠ 0 → recordSizeof r ≤ bytes.length →
          ((validatorOutcome r refineHolds (some bytes) = .refinementViolation
              ↔ r.refine_rule.isSome ∧ refineHolds = false)
            ∧ (r.refine_rule = none → validatorOutcome r refineHolds (some bytes) = .valid)
            ∧ (r.refine_rule.isSome → refineHolds = true →
                validatorOutcome r refineHolds (some bytes) = .valid)))
      ∧ (∀ b, outcomeRet (validatorOutcome r refineHolds b) = 0
            ∨ outcomeRet (validatorOutcome r refineHolds b) = -1) := by
  intro r refineHolds
  refine ⟨rfl, ?_, ?_, ?_, ?_⟩
  · intro bytes h
    simp [validatorOutcome, h]
  · intro bytes h0 hlt
    simp [validatorOutcome, h0, hlt]
  · intro bytes h0 hge
    have hnlt : ¬ bytes.length < recordSizeof r := by omega
    rcases hr : r.refine_rule with _ | rule
    · refine ⟨?_, fun _ => ?_, ?_⟩
      · simp [validatorOutcome, h0, hnlt, hr]
      · simp [validatorOutcome, h0, hnlt, hr]
      · intro hs
        simp at hs
    · refine ⟨?_, ?_, ?_⟩
      · cases refineHolds <;> simp [validatorOutcome, h0, hnlt, hr]
      · intro hn
        simp at hn
      · intro _ hh
        simp [validatorOutcome, h0, hnlt, hr, hh]
  · intro b
    cases h : validatorOutcome r refineHolds b <;> simp [outcomeRet]

/-! ## C5 -/

/-- The recognised WIT type tokens. -/
def recognizedTypes : List String :=
  ["s8", "u8", "bool", "s16", "u16", "s32", "u32", "s64", "u64", "timestamp",
   "f32", "f64", "score", "utf8", "bytes", "string"]

/-- C5: the type-to-layout mapping is total and fixed-width.  Each branch
gives exactly the claimed cell(s) with the claimed byte widths: 1-byte
integers and `bool` one 1-byte unsigned cell, 2/4/8-byte integers and
`timestamp` one unsigned cell of that width, `f32` a 4-byte float cell,
`f64` and `score` an 8-byte float cell, the variable-length `utf8` /
`bytes` / `string` types a pair of 4-byte unsigned `offset`/`len` cells
(no inline bytes), and any unrecognised token one opaque 8-byte cell —
never an error. -/
theorem claim_c5_layout_mapping :
    ∀ (t n : String),
      map_wit_type t n ≠ []
      ∧ ((t = "s8" ∨ t = "u8" ∨ t = "bool") →
          map_wit_type t n = ["    uint8_t " ++ n ++ ";"]
            ∧ (map_wit_type t n).map declWidth = [1])
      ∧ ((t = "s16" ∨ t = "u16") →
          map_wit_type t n = ["    uint16_t " ++ n ++ ";"]
            ∧ (map_wit_type t n).map declWidth = [2])
      ∧ ((t = "s32" ∨ t = "u32") →
          map_wit_type t n = ["    uint32_t " ++ n ++ ";"]
            ∧ (map_wit_type t n).map declWidth = [4])
      ∧ ((t = "s64" ∨ t = "u64" ∨ t = "timestamp") →
          map_wit_type t n = ["    uint64_t " ++ n ++ ";"]
            ∧ (map_wit_type t n).map declWidth = [8])
      ∧ (t = "f32" →
          map_wit_type t n = ["    float " ++ n ++ ";"]
            ∧ (map_wit_type t n).map declWidth = [4])
      ∧ ((t = "f64" ∨ t = "score") →
          map_wit_type t n = ["    double " ++ n ++ ";"]
            ∧ (map_wit_type t n).map declWidth = [8])
      ∧ ((t = "utf8" ∨ t = "bytes" ∨ t = "string") →
          map_wit_type t n
              = ["    uint32_t " ++ n ++ "_offset;", "    uint32_t " ++ n ++ "_len;"]
            ∧ (map_wit_type t n).map declWidth = [4, 4])
      ∧ (t ∉ recognizedTypes →
          map_wit_type t n = ["    uint64_t " ++ n ++ "_unknown_layout;"]
            ∧ (map_wit_type t n).map declWidth = [8]) := by
  intro t n
  refine ⟨?_, ?_, ?_, ?_, ?_, ?_, ?_, ?_, ?_⟩
  · unfold map_wit_type
    split_ifs <;> simp
  · rintro (rfl | rfl | rfl) <;> exact ⟨rfl, rfl⟩
  · rintro (rfl | rfl) <;> exact ⟨rfl, rfl⟩
  · rintro (rfl | rfl) <;> exact ⟨rfl, rfl⟩
  · rintro (rfl | rfl | rfl) <;> exact ⟨rfl, rfl⟩
  · rintro rfl
    exact ⟨rfl, rfl⟩
  · rintro (rfl | rfl) <;> exact ⟨rfl, rfl⟩
  · rintro (rfl | rfl | rfl) <;> exact ⟨rfl, rfl⟩
  · intro h
    simp only [recognizedTypes, List.mem_cons, List.mem_singleton] at h
    push_neg at h
    obtain ⟨h1, h2, h3, h4, h5, h6, h7, h8, h9, h10, h11, h12, h13, h14, h15, h16⟩ := h
    have hmap : map_wit_type t n = ["    uint64_t " ++ n ++ "_unknown_layout;"] := by
      simp [map_wit_type, h1, h2, h3, h4, h5, h6, h7, h8, h9, h10, h11, h12, h13, h14, h15, h16]
    refine ⟨hmap, ?_⟩
    rw [hmap]
    rfl

/-! ## C4 -/

/-- If the scan finds no boundary-delimited occurrence, the substitution
scan copies the text unchanged. -/
theorem subAux_id (nm repl : List Char) :
    ∀ (fuel : Nat) (prev : Option Char) (l : List Char),
      wwAux nm fuel prev l = false → subAux nm repl fuel prev l = l := by
  intro fuel
  induction fuel with
  | zero => intro prev l _; cases l <;> rfl
  | succ f ih =>
    intro prev l h
    cases l with
    | nil => rfl
    | cons c rest =>
      by_cases hm : matchAt nm prev (c :: rest)
      · simp [wwAux, hm] at h
      · have h2 : wwAux nm f (some c) rest = false := by
          simpa [wwAux, hm] using h
        simp [subAux, hm, ih (some c) rest h2]

/-- The §8 refinement example record: a value record with field
`confidence: score` and refinement `confidence >= 0.0`. -/
def recConf : WitRecord :=
  ⟨"dbi0-conf-value", some "confidence >= 0.0", [⟨"confidence", "score"⟩]⟩

/-- C4: refinement substitution is whole-word only.  (1) A field name with
no boundary-delimited occurrence in the rule — every occurrence sits inside
a longer identifier — is never replaced: the rule text is unchanged.
(2) Concretely, a whole-word occurrence is replaced while a longer
identifier containing the same name survives.  (3–5) The §8 example:
`@refine(confidence >= 0.0)` on a record with `confidence: score` yields a
validator whose condition reads `rec->confidence`, whose struct cell for
`confidence` is the 8-byte float cell `double confidence;` (so the packed
layout size is 8), and (6) a sufficient buffer on which the refinement
evaluates false is rejected as a `RefinementViolation` (the float
comparison itself is abstracted as the semantic parameter). -/
theorem claim_c4_whole_word_only :
    (∀ (nm repl rule : List Char),
      hasWholeWordOcc nm rule = false → pySubWB nm repl rule = rule)
    ∧ pySubWB "conf".data "rec->conf".data "conf + confab".data = "rec->conf + confab".data
    ∧ substRule recConf.fields "confidence >= 0.0" = "rec->confidence >= 0.0"
    ∧ generate_validator recConf =
        ["static inline int sap_wit_validate_dbi0_conf_value(const void *data, uint32_t len) \x7b",
         "    if (data == NULL || len == 0) return 0; /* Deletion or empty payload bypass */",
         "    if (len < sizeof(SapWit_dbi0_conf_value)) return -1; /* ERR_CORRUPT */",
         "    const SapWit_dbi0_conf_value *rec = (const SapWit_dbi0_conf_value *)data;",
         "    if (!(rec->confidence >= 0.0)) return -1; /* Refinement violation! */",
         "    return 0;", "\x7d", ""]
    ∧ generate_record_struct recConf =
        ["typedef struct __attribute__((packed)) \x7b", "    double confidence;",
         "\x7d SapWit_dbi0_conf_value;", ""]
    ∧ recordSizeof recConf = 8
    ∧ (∀ bytes : List Nat, bytes.length ≠ 0 → 8 ≤ bytes.length →
        validatorOutcome recConf false (some bytes) = .refinementViolation) := by
  refine ⟨?_, by rfl, by rfl, by rfl, by rfl, by rfl, ?_⟩
  · intro nm repl rule h
    exact subAux_id nm repl (rule.length + 1) none rule h
  · intro bytes h0 hge
    have hnlt : ¬ bytes.length < recordSizeof recConf := by
      have : recordSizeof recConf = 8 := by rfl
      omega
    simp [validatorOutcome, h0, hnlt]
    rfl

/-! ## C9 -/

/-- `tailComma` succeeds exactly by consuming whitespace and one comma. -/
theorem tailComma_sound (nm ty r : List Char) (f : WitField) (rest : List Char)
    (h : tailComma nm ty r = some (f, rest)) :
    f = ⟨⟨nm⟩, ⟨ty⟩⟩ ∧ ∃ w, (∀ c ∈ w, isPyWs c = true) ∧ r = w ++ ',' :: rest := by
  unfold tailComma at h
  rcases hd : r.dropWhile isPyWs with _ | ⟨c9, rest2⟩
  · rw [hd] at h; simp at h
  · rw [hd] at h
    by_cases hc : c9 = ','
    · simp only [if_pos hc, Option.some.injEq, Prod.mk.injEq] at h
      obtain ⟨hf, hrest⟩ := h
      refine ⟨hf.symm, r.takeWhile isPyWs, ?_, ?_⟩
      · intro c hc2; exact List.mem_takeWhile_imp hc2
      · conv_lhs => rw [← List.takeWhile_append_dropWhile (p := isPyWs) (l := r)]
        rw [hd, hc, hrest]
    · simp only [if_neg hc] at h
      exact Option.noConfusion h

/-- A successful `FIELD_RE` attempt decomposes its input as whitespace,
the field name, whitespace, `:`, whitespace, the type token text exactly
as stored, whitespace, and the comma — so the field is read off a fragment
of the input text, never invented. -/
theorem tryFieldMatch_sound (l : List Char) (f : WitField) (rest : List Char)
    (h : tryFieldMatch l = some (f, rest)) :
    ∃ w1 w2 w3 w4,
      l = w1 ++ f.name.data ++ w2 ++ ':' :: w3 ++ f.wit_type.data ++ w4 ++ ',' :: rest
      ∧ (∀ c ∈ w1, isPyWs c = true) ∧ (∀ c ∈ w2, isPyWs c = true)
      ∧ (∀ c ∈ w3, isPyWs c = true) ∧ (∀ c ∈ w4, isPyWs c = true)
      ∧ f.name.data ≠ [] ∧ (∀ c ∈ f.name.data, nameClassChar c = true)
      ∧ f.wit_type.data ≠ [] := by
  have hnm_cls : ∀ c ∈ (l.dropWhile isPyWs).takeWhile nameClassChar,
      nameClassChar c = true := fun c hc => List.mem_takeWhile_imp hc
  simp only [tryFieldMatch] at h
  by_cases hne : ((l.dropWhile isPyWs).takeWhile nameClassChar).isEmpty
  · rw [if_pos hne] at h; exact Option.noConfusion h
  · rw [if_neg hne] at h
    have hnm_ne : (l.dropWhile isPyWs).takeWhile nameClassChar ≠ [] := by
      intro he; rw [he] at hne; exact hne rfl
    rcases hd : ((l.dropWhile isPyWs).dropWhile nameClassChar).dropWhile isPyWs
        with _ | ⟨c3, r4⟩
    · rw [hd] at h; simp at h
    · rw [hd] at h
      by_cases hc3 : c3 = ':'
      · simp only [if_pos hc3] at h
        by_cases hty : ((r4.dropWhile isPyWs).takeWhile nameClassChar).isEmpty
        · rw [if_pos hty] at h; exact Option.noConfusion h
        · rw [if_neg hty] at h
          have hty_ne : (r4.dropWhile isPyWs).takeWhile nameClassChar ≠ [] := by
            intro he; rw [he] at hty; exact hty rfl
          rcases hr6 : (r4.dropWhile isPyWs).dropWhile nameClassChar with _ | ⟨c6, r7⟩
          · rw [hr6] at h
            simp [tailComma] at h
          · rw [hr6] at h
            by_cases hc6 : c6 = '<'
            · simp only [if_pos hc6] at h
              by_cases hg : (r7.takeWhile (fun c => !(c = '>'))).isEmpty
              · rw [if_pos hg] at h; exact Option.noConfusion h
              · rw [if_neg hg] at h
                rcases hr8 : r7.dropWhile (fun c => !(c = '>')) with _ | ⟨c8, r9⟩
                · rw [hr8] at h; simp at h
                · rw [hr8] at h
                  by_cases hc8 : c8 = '>'
                  · simp only [if_pos hc8] at h
                    obtain ⟨hf, w4, hw4, hr9e⟩ := tailComma_sound _ _ _ _ _ h
                    subst hf
                    refine ⟨l.takeWhile isPyWs,
                      ((l.dropWhile isPyWs).dropWhile nameClassChar).takeWhile isPyWs,
                      r4.takeWhile isPyWs, w4, ?_,
                      fun c hc => List.mem_takeWhile_imp hc,
                      fun c hc => List.mem_takeWhile_imp hc,
                      fun c hc => List.mem_takeWhile_imp hc, hw4, hnm_ne, hnm_cls, by simp⟩
                    conv_lhs => rw [← List.takeWhile_append_dropWhile (p := isPyWs) (l := l)]
                    conv_lhs => rw [← List.takeWhile_append_dropWhile
                      (p := nameClassChar) (l := l.dropWhile isPyWs)]
                    conv_lhs => rw [← List.takeWhile_append_dropWhile (p := isPyWs)
                      (l := (l.dropWhile isPyWs).dropWhile nameClassChar)]
                    conv_lhs => rw [hd]
                    conv_lhs => rw [hc3]
                    conv_lhs => rw [← List.takeWhile_append_dropWhile (p := isPyWs) (l := r4)]
                    conv_lhs => rw [← List.takeWhile_append_dropWhile
                      (p := nameClassChar) (l := r4.dropWhile isPyWs)]
                    conv_lhs => rw [hr6]
                    conv_lhs => rw [hc6]
                    conv_lhs => rw [← List.takeWhile_append_dropWhile
                      (p := fun c => !(c = '>')) (l := r7)]
                    conv_lhs => rw [hr8]
                    conv_lhs => rw [hc8]
                    conv_lhs => rw [hr9e]
                    simp
                  · simp only [if_neg hc8] at h
                    exact Option.noConfusion h
            · simp only [if_neg hc6] at h
              obtain ⟨hf, w4, hw4, hr6e⟩ := tailComma_sound _ _ _ _ _ h
              subst hf
              refine ⟨l.takeWhile isPyWs,
                ((l.dropWhile isPyWs).dropWhile nameClassChar).takeWhile isPyWs,
                r4.takeWhile isPyWs, w4, ?_,
                fun c hc => List.mem_takeWhile_imp hc,
                fun c hc => List.mem_takeWhile_imp hc,
                fun c hc => List.mem_takeWhile_imp hc, hw4, hnm_ne, hnm_cls, hty_ne⟩
              conv_lhs => rw [← List.takeWhile_append_dropWhile (p := isPyWs) (l := l)]
              conv_lhs => rw [← List.takeWhile_append_dropWhile
                (p := nameClassChar) (l := l.dropWhile isPyWs)]
              conv_lhs => rw [← List.takeWhile_append_dropWhile (p := isPyWs)
                (l := (l.dropWhile isPyWs).dropWhile nameClassChar)]
              conv_lhs => rw [hd]
              conv_lhs => rw [hc3]
              conv_lhs => rw [← List.takeWhile_append_dropWhile (p := isPyWs) (l := r4)]
              conv_lhs => rw [← List.takeWhile_append_dropWhile
                (p := nameClassChar) (l := r4.dropWhile isPyWs)]
              conv_lhs => rw [hr6]
              conv_lhs => rw [hr6e]
              simp
      · simp only [if_neg hc3] at h
        exact Option.noConfusion h

/-- Every field the scanning loop produces is read off a fragment of the
scanned text of the form `<name> … : … <type> … ,`. -/
theorem fieldScan_sound :
    ∀ (fuel : Nat) (atLS : Bool) (l : List Char) (f : WitField),
      f ∈ fieldScan fuel atLS l →
      ∃ pre w2 w3 w4 post,
        l = pre ++ f.name.data ++ w2 ++ ':' :: w3 ++ f.wit_type.data ++ w4 ++ ',' :: post
        ∧ (∀ c ∈ w2, isPyWs c = true) ∧ (∀ c ∈ w3, isPyWs c = true)
        ∧ (∀ c ∈ w4, isPyWs c = true)
        ∧ f.name.data ≠ [] ∧ (∀ c ∈ f.name.data, nameClassChar c = true)
        ∧ f.wit_type.data ≠ [] := by
  intro fuel
  induction fuel with
  | zero =>
    intro atLS l f hm
    cases l <;> simp [fieldScan] at hm
  | succ fu ih =>
    intro atLS l f hm
    cases l with
    | nil => simp [fieldScan] at hm
    | cons c rest =>
      cases atLS with
      | false =>
        simp only [fieldScan, Bool.false_eq_true, if_false] at hm
        obtain ⟨pre, w2, w3, w4, post, he, hw2, hw3, hw4, hn1, hn2, ht1⟩ :=
          ih (c = '\n') rest f hm
        exact ⟨c :: pre, w2, w3, w4, post, by rw [he]; simp,
          hw2, hw3, hw4, hn1, hn2, ht1⟩
      | true =>
        rcases ht : tryFieldMatch (c :: rest) with _ | ⟨f0, r⟩
        · simp only [fieldScan, if_true, ht] at hm
          obtain ⟨pre, w2, w3, w4, post, he, hw2, hw3, hw4, hn1, hn2, ht1⟩ :=
            ih (c = '\n') rest f hm
          exact ⟨c :: pre, w2, w3, w4, post, by rw [he]; simp,
            hw2, hw3, hw4, hn1, hn2, ht1⟩
        · simp only [fieldScan, if_true, ht] at hm
          rcases List.mem_cons.mp hm with hf0 | hmem
          · subst hf0
            obtain ⟨w1, w2, w3, w4, he, hw1, hw2, hw3, hw4, hn1, hn2, ht1⟩ :=
              tryFieldMatch_sound (c :: rest) f r ht
            exact ⟨w1, w2, w3, w4, r, he, hw2, hw3, hw4, hn1, hn2, ht1⟩
          · obtain ⟨w1, w2x, w3x, w4x, hcr, _, _, _, _, _, _, _⟩ :=
              tryFieldMatch_sound (c :: rest) f0 r ht
            obtain ⟨pre, w2, w3, w4, post, he, hw2, hw3, hw4, hn1, hn2, ht1⟩ :=
              ih false r f hmem
            refine ⟨w1 ++ f0.name.data ++ w2x ++ ':' :: w3x ++ f0.wit_type.data
                ++ w4x ++ ',' :: pre, w2, w3, w4, post, ?_,
              hw2, hw3, hw4, hn1, hn2, ht1⟩
            rw [hcr, he]
            simp [List.append_assoc]

/-- C9: (soundness) every field `FIELD_RE` extracts from a record body
corresponds exactly to a fragment of that body text of the form
`<field-name> : <type-token> ,` (whitespace as the pattern allows, the
type token retained verbatim, generic suffix included): the parser never
produces a field that was not written in the source.  (leniency) A
malformed field line is silently dropped without discarding the rest of
the record: a body with a bad line followed by a good line still yields
exactly the good field. -/
theorem claim_c9_fields_never_invented :
    (∀ (body : String) (f : WitField), f ∈ parseFields body →
      ∃ pre w2 w3 w4 post,
        body.data = pre ++ f.name.data ++ w2 ++ ':' :: w3 ++ f.wit_type.data
          ++ w4 ++ ',' :: post
        ∧ (∀ c ∈ w2, isPyWs c = true) ∧ (∀ c ∈ w3, isPyWs c = true)
        ∧ (∀ c ∈ w4, isPyWs c = true)
        ∧ f.name.data ≠ [] ∧ (∀ c ∈ f.name.data, nameClassChar c = true)
        ∧ f.wit_type.data ≠ [])
    ∧ parseFields "bad line\ngood: u32,\n" = [⟨"good", "u32"⟩] := by
  constructor
  · intro body f hf
    exact fieldScan_sound _ _ _ f hf
  · rfl

/-! ## Witnesses at concrete inputs -/

/-- Witness for C1 at the example schema: one entry, indices `[0]`. -/
theorem claim_c1_witness_example :
    ([entryState] : List DbiEntry) ≠ []
      ∧ [entryState].map DbiEntry.dbi = List.range [entryState].length :=
  claim_c1_resolver_contiguous witExample [entryState] parse_witExample

set_option maxRecDepth 8000 in
/-- Witness for C7 at the example schema: the second run over the manifest
the first run wrote returns the first run's output unchanged. -/
theorem claim_c7_witness_example :
    runPipeline witExample
        (some (readBackRows (manifestRows [entryState] none))) "sapling/wit_schema_dbis.h"
      = .ok ⟨[entryState], manifestRows [entryState] none, headerLines [entryState],
          sourceLines [entryState] "sapling/wit_schema_dbis.h"⟩ :=
  claim_c7_idempotent witExample none "sapling/wit_schema_dbis.h"
    ⟨[entryState], manifestRows [entryState] none, headerLines [entryState],
     sourceLines [entryState] "sapling/wit_schema_dbis.h"⟩ (by rfl)

end Sapling
